import Mathlib

/-!
Byte-level embedding of the bencode codec in `src/encode.ts`, `src/decode.ts`
and `src/tokens.ts`.

Modelling conventions:
* a `Buffer` is a `List Nat` of byte values;
* a JS number used as an offset or length is `Option Int`, with `none`
  modelling `NaN` (`jsAdd`/`jsEq`/`jsGet` implement JS `+`, `===` and
  indexing on such values);
* a JS string is modelled by its byte sequence, so `Buffer.from(s)` and
  `buff.toString(...)` are identities up to slicing;
* `Try<T>` becomes `Except String T`, and the potentially non-terminating
  decoder loops take a fuel argument: the `Res.div` result (or `none` for
  `decodeTop`/`intScan`) means the computation did not finish within the
  given fuel, and a `∀ fuel` statement of that form models divergence.
-/

namespace Bencoder

/-- A JS number used as a buffer offset or length: `none` models `NaN`. -/
abbrev JSNum := Option Int

/-! ## Tokens (`src/tokens.ts`) -/

/-- `delimiter` = `':'`. -/
def delimiterByte : Nat := 58

/-- `dict_start` = `'d'`. -/
def dictStartByte : Nat := 100

/-- `list_start` = `'l'`. -/
def listStartByte : Nat := 108

/-- `int_start` = `'i'`. -/
def intStartByte : Nat := 105

/-- `type_end` = `'e'`. -/
def typeEndByte : Nat := 101

/-- `string_start`: the ASCII digit bytes `'0'`–`'9'`. -/
def stringStartBytes : List Nat := [48, 49, 50, 51, 52, 53, 54, 55, 56, 57]

/-! ## JS number / buffer primitives -/

/-- JS buffer indexing `buff[i]`: `undefined` (`none`) when the index is
`NaN`, negative, or at least the length. -/
def jsGet (buff : List Nat) : JSNum → Option Nat
  | none => none
  | some i => if i < 0 then none else buff[i.toNat]?

/-- JS `+` on an offset: `NaN` propagates. -/
def jsAdd (x : JSNum) (n : Int) : JSNum := x.map (· + n)

/-- JS `===` on two numbers: `NaN === NaN` is `false`. -/
def jsEq : JSNum → JSNum → Bool
  | some a, some b => a = b
  | _, _ => false

/-- Index coercion used by `Buffer.toString(enc, start, end)`: `NaN` goes to
`0`, negatives clamp to `0`, overlong indices clamp to the length. -/
def clampIdx (len : Nat) : JSNum → Nat
  | none => 0
  | some i => if i < 0 then 0 else min i.toNat len

/-- `buff.toString('utf-8', s, e)` as a byte slice with Node's clamping. -/
def jsSlice (buff : List Nat) (s e : JSNum) : List Nat :=
  (buff.take (clampIdx buff.length e)).drop (clampIdx buff.length s)

/-! ## `Number.parseInt` -/

/-- ASCII whitespace skipped by `parseInt`. -/
def wsBytes : List Nat := [9, 10, 11, 12, 13, 32]

/-- Decimal digit test. -/
def isDigitByte (b : Nat) : Bool := 48 ≤ b && b ≤ 57

/-- Numeric value of a run of decimal digit bytes. -/
def natFromDigits (ds : List Nat) : Nat := ds.foldl (fun a d => 10 * a + (d - 48)) 0

/-- Sign-and-digit-run part of `parseInt`: the longest digit run is taken and
an empty run is `NaN` (`none`). -/
def parseIntCore (sign : Int) (u : List Nat) : Option Int :=
  let ds := u.takeWhile isDigitByte
  if ds.isEmpty then none else some (sign * (natFromDigits ds : Int))

/-- `Number.parseInt` (radix 10) on a byte string: skip whitespace, read an
optional sign, then the longest run of digits; `none` models `NaN`. -/
def parseIntJS (s : List Nat) : Option Int :=
  let t := s.dropWhile (fun b => b ∈ wsBytes)
  if t.head? = some 43 then parseIntCore 1 t.tail
  else if t.head? = some 45 then parseIntCore (-1) t.tail
  else parseIntCore 1 t

/-- Decimal digit bytes of `n`: JS `String(n)` for a non-negative integer. -/
def natDigitBytes (n : Nat) : List Nat :=
  if n = 0 then [48] else (Nat.digits 10 n).reverse.map (· + 48)

/-! ## The `Bencodable` value tree (`src/types.ts`) -/

/-- `Bencodable`: JS numbers (as rationals, since they may be non-integral),
booleans, strings (as byte sequences), arrays, and `Map`/`JSObject` key-value
mappings (as association lists in insertion order, keys unique). -/
inductive Bencodable : Type where
  | int (q : Rat)
  | bool (b : Bool)
  | str (s : List Nat)
  | list (l : List Bencodable)
  | dict (d : List (List Nat × Bencodable))

/-! ## Key ordering and `Array.sort()` -/

/-- JS string `<=` on byte strings (code-unit lexicographic), as used by the
default `Array.sort()` comparator. -/
def keyLeB : List Nat → List Nat → Bool
  | [], _ => true
  | _ :: _, [] => false
  | a :: as, b :: bs => if a < b then true else if b < a then false else keyLeB as bs

/-- Relation form of `keyLeB`. -/
def KeyLe (a b : List Nat) : Prop := keyLeB a b = true

instance : DecidableRel KeyLe := fun a b =>
  inferInstanceAs (Decidable (keyLeB a b = true))

/-- `Array.from(map.keys()).sort()` with the default string comparator. -/
def sortJS (keys : List (List Nat)) : List (List Nat) := List.insertionSort KeyLe keys

/-! ## Encoder (`src/encode.ts`) -/

/-- `encodeInt`: fails on a negative or non-integral number, else emits
`i<decimal digits>e`. -/
def encodeInt (q : Rat) : Except String (List Nat) :=
  if ¬ (0 ≤ q) then .error "is negative"
  else if ¬ (q.den = 1) then .error "is not an integer"
  else .ok (intStartByte :: natDigitBytes q.num.toNat ++ [typeEndByte])

/-- `encodeBoolean`: booleans encode as the integers `0`/`1`. -/
def encodeBoolean (b : Bool) : Except String (List Nat) :=
  encodeInt (if b then 1 else 0)

/-- `encodeString`: `<decimal length><delimiter><bytes>`; never fails. -/
def encodeString (s : List Nat) : List Nat :=
  natDigitBytes s.length ++ delimiterByte :: s

/-- `Map.prototype.get` / JS object key read on an association list. -/
def mapGet (k : List Nat) : List (List Nat × Bencodable) → Option Bencodable
  | [] => none
  | (a, b) :: es => if k = a then some b else mapGet k es

/-- Membership lemma used for the well-founded recursion of `encode`. -/
theorem mem_of_mapGet {k : List Nat} {v : Bencodable} :
    ∀ {d : List (List Nat × Bencodable)}, mapGet k d = some v → (k, v) ∈ d := by
  intro d
  induction d with
  | nil => intro h; simp [mapGet] at h
  | cons p ps ih =>
    intro h
    obtain ⟨a, b⟩ := p
    rw [mapGet] at h
    by_cases hk : k = a
    · rw [if_pos hk] at h
      cases h
      subst hk
      left
    · rw [if_neg hk] at h
      exact List.mem_cons_of_mem _ (ih h)

mutual

/-- `encode`: dispatch on the value's kind (primitive, array, map/object). -/
def encode (v : Bencodable) : Except String (List Nat) :=
  match v with
  | .int q => encodeInt q
  | .bool b => encodeBoolean b
  | .str s => .ok (encodeString s)
  | .list l => encodeArray l
  | .dict d => encodeMap d
termination_by (sizeOf v, 0)
decreasing_by
  all_goals (apply Prod.Lex.left; simp; try omega)

/-- `encodeArray`: `l` + the element encodings + `e`; first failure wins. -/
def encodeArray (l : List Bencodable) : Except String (List Nat) :=
  match encodeElems l with
  | .error e => .error e
  | .ok bs => .ok (listStartByte :: bs ++ [typeEndByte])
termination_by (sizeOf l, 1)
decreasing_by
  apply Prod.Lex.right; omega

/-- The concatenated element encodings of an array. -/
def encodeElems (l : List Bencodable) : Except String (List Nat) :=
  match l with
  | [] => .ok []
  | v :: vs =>
    match encode v with
    | .error e => .error e
    | .ok b =>
      match encodeElems vs with
      | .error e => .error e
      | .ok bs => .ok (b ++ bs)
termination_by (sizeOf l, 0)
decreasing_by
  all_goals (apply Prod.Lex.left; simp; try omega)

/-- `encodeMap`: `d` + one chunk per key in sorted order + `e`. -/
def encodeMap (d : List (List Nat × Bencodable)) : Except String (List Nat) :=
  match encodeEntries (sortJS (d.map Prod.fst)) d with
  | .error e => .error e
  | .ok bs => .ok (dictStartByte :: bs ++ [typeEndByte])
termination_by (sizeOf d, (sortJS (d.map Prod.fst)).length + 1)
decreasing_by
  apply Prod.Lex.right; omega

/-- One `<encoded key><encoded value>` chunk per key; values via `map.get`. -/
def encodeEntries (keys : List (List Nat)) (d : List (List Nat × Bencodable)) :
    Except String (List Nat) :=
  match keys with
  | [] => .ok []
  | k :: ks =>
    match hv : mapGet k d with
    | none => .error "Missing value for key"
    | some v =>
      match encode v with
      | .error e => .error e
      | .ok vb =>
        match encodeEntries ks d with
        | .error e => .error e
        | .ok rest => .ok (encodeString k ++ vb ++ rest)
termination_by (sizeOf d, keys.length)
decreasing_by
  · apply Prod.Lex.left
    have hm := mem_of_mapGet hv
    have h1 : sizeOf (k, v) ≤ sizeOf d := le_of_lt (List.sizeOf_lt_of_mem hm)
    simp at h1
    omega
  · apply Prod.Lex.right; simp

end

/-! ## Decoder (`src/decode.ts`) -/

/-- Result of a fuelled decoding step: `div` means the fuel ran out (the
source loop would still be running), `err` a `Try.failure`, `ok` a decoded
value together with the new offset. -/
inductive Res (α : Type) : Type where
  | div : Res α
  | err : String → Res α
  | ok : α → JSNum → Res α

/-- The scan of `findNextDelimiter` over positions `n`, `n+1`, ...: stop at
`':'`, throw when the read at the moving index is `undefined`. The `gas`
argument is `buff.length - n`, which bounds the remaining iterations (the
loop throws as soon as the moving index leaves the buffer), so recursion on
it is faithful; `gas = 0` means `n` is already past the end. -/
def findDelimAux (buff : List Nat) : Nat → Nat → Except String Int
  | 0, _ => .error "No value found"
  | gas + 1, n =>
    match buff[n]? with
    | none => .error "No value found"
    | some b => if b = delimiterByte then .ok (n : Int) else findDelimAux buff gas (n + 1)

/-- `findNextDelimiter`: position of the next `':'` at or after `offset`. -/
def findNextDelimiter (buff : List Nat) (off : JSNum) : Except String Int :=
  match off with
  | none => .error "No value found"
  | some i =>
    if i < 0 then .error "No value found"
    else findDelimAux buff (buff.length - i.toNat) i.toNat

/-- `decodeStringLength`: parse the length run before the next delimiter;
the parsed length is `none` when `parseInt` gave `NaN` (no filter rejects
it in the source). Returns the length and the delimiter position. -/
def decodeStringLength (buff : List Nat) (off : JSNum) :
    Except String (Option Int × Int) :=
  match findNextDelimiter buff off with
  | .error e => .error e
  | .ok d => .ok (parseIntJS (jsSlice buff off (some d)), d)

/-- `decodeStringContent`: re-check the delimiter, then slice `length` bytes
after it (Node's `toString` clamps, so a truncated buffer yields a short
slice, not an error); the returned offset is not clamped. -/
def decodeStringContent (buff : List Nat) (off : Int) (len : Option Int) :
    Except String (List Nat × JSNum) :=
  if jsGet buff (some off) = some delimiterByte then
    .ok (jsSlice buff (some (off + 1)) (len.map (fun L => off + 1 + L)),
         len.map (fun L => off + 1 + L))
  else .error "Incorrect delimiter"

/-- `decodeString`: length then content. -/
def decodeString (buff : List Nat) (off : JSNum) : Except String (List Nat × JSNum) :=
  match decodeStringLength buff off with
  | .error e => .error e
  | .ok (len, d) => decodeStringContent buff d len

/-- The `while (buff[cOffset] !== type_end)` scan inside `decodeInteger`.
Note the exhaustion guard re-reads the fixed start index `sOff`, exactly as
the source does; `none` means the fuel ran out. -/
def intScan (buff : List Nat) (sOff : Int) : Nat → Int → Option (Except String Int)
  | 0, _ => none
  | fuel + 1, c =>
    if jsGet buff (some c) = some typeEndByte then some (.ok c)
    else
      match jsGet buff (some sOff) with
      | none => some (.error "No value found")
      | some _ => intScan buff sOff fuel (c + 1)

/-- `decodeInteger`: require `i`, scan to `e`, parse the slice, reject `NaN`
and negative values. -/
def decodeInteger : Nat → List Nat → JSNum → Res Int
  | 0, _, _ => .div
  | fuel + 1, buff, off =>
    match off with
    | none => .err "Incorrect token"
    | some i =>
      match jsGet buff (some i) with
      | none => .err "Incorrect token"
      | some b =>
        if b = intStartByte then
          match intScan buff (i + 1) fuel (i + 1) with
          | none => .div
          | some (.error e) => .err e
          | some (.ok c) =>
            match parseIntJS (jsSlice buff (some (i + 1)) (some c)) with
            | none => .err "Not an integer"
            | some n => if n < 0 then .err "is negative" else .ok n (some (c + 1))
        else .err "Incorrect token"

/-- JS object assignment `dict[key] = value`: replace in place when the key
exists, else append. -/
def objInsert (d : List (List Nat × Bencodable)) (k : List Nat) (v : Bencodable) :
    List (List Nat × Bencodable) :=
  if (mapGet k d).isSome then d.map (fun p => if p.1 = k then (k, v) else p)
  else d ++ [(k, v)]

mutual

/-- The `while (whileFn(...))` loop of `decodeAny` with its dispatch switch:
`d`/`l`/`i` and digit lead bytes go to the matching decoder, anything else
falls to the `default` branch, which advances the offset by one. One unit of
fuel per iteration. -/
def decodeAnyLoop : Nat → List Nat → (Option Bencodable → JSNum → JSNum → Bool) →
    Option Bencodable → JSNum → JSNum → List Bencodable → Res (List Bencodable)
  | 0, _, _, _, _, _, _ => .div
  | fuel + 1, buff, wf, last, oOff, nOff, acc =>
    if wf last oOff nOff then
      match jsGet buff nOff with
      | none => .err "No value found"
      | some t =>
        if t = dictStartByte then
          match decodeDict fuel buff nOff with
          | .div => .div
          | .err e => .err e
          | .ok d off2 =>
            decodeAnyLoop fuel buff wf (some (.dict d)) nOff off2 (acc ++ [.dict d])
        else if t = listStartByte then
          match decodeList fuel buff nOff with
          | .div => .div
          | .err e => .err e
          | .ok l off2 =>
            decodeAnyLoop fuel buff wf (some (.list l)) nOff off2 (acc ++ [.list l])
        else if t = intStartByte then
          match decodeInteger fuel buff nOff with
          | .div => .div
          | .err e => .err e
          | .ok n off2 =>
            decodeAnyLoop fuel buff wf (some (.int (n : Rat))) nOff off2
              (acc ++ [.int (n : Rat)])
        else if t ∈ stringStartBytes then
          match decodeString buff nOff with
          | .error e => .err e
          | .ok (s, off2) =>
            decodeAnyLoop fuel buff wf (some (.str s)) nOff off2 (acc ++ [.str s])
        else
          decodeAnyLoop fuel buff wf last nOff (jsAdd nOff 1) acc
    else .ok acc nOff

/-- `decodeList`: require `l`, then collect values until the byte at the
current offset is `e`. -/
def decodeList : Nat → List Nat → JSNum → Res (List Bencodable)
  | 0, _, _ => .div
  | fuel + 1, buff, off =>
    match off with
    | none => .err "Invalid list token"
    | some i =>
      match jsGet buff (some i) with
      | none => .err "Invalid list token"
      | some b =>
        if b = listStartByte then
          match decodeAnyLoop fuel buff
              (fun _ _ v3 => jsGet buff v3 != some typeEndByte)
              none (some (i + 1)) (some (i + 1)) [] with
          | .div => .div
          | .err e => .err e
          | .ok l off2 => .ok l (jsAdd off2 1)
        else .err "Invalid list token"

/-- `decodeDict`: require `d`, then run the key/value loop. -/
def decodeDict : Nat → List Nat → JSNum → Res (List (List Nat × Bencodable))
  | 0, _, _ => .div
  | fuel + 1, buff, off =>
    match off with
    | none => .err "Invalid dict token"
    | some i =>
      match jsGet buff (some i) with
      | none => .err "Invalid dict token"
      | some b =>
        if b = dictStartByte then dictLoop fuel buff (some (i + 1)) []
        else .err "Invalid dict token"

/-- The `while (buff[cOffset] !== type_end)` loop of `decodeDict`: decode a
key string, then exactly one value (via `decodeAny` whose `whileFn` is true
only when the two offsets are still `===`), and assign it into the object. -/
def dictLoop : Nat → List Nat → JSNum → List (List Nat × Bencodable) →
    Res (List (List Nat × Bencodable))
  | 0, _, _, _ => .div
  | fuel + 1, buff, c, dict =>
    if jsGet buff c != some typeEndByte then
      match decodeString buff c with
      | .error e => .err e
      | .ok (k, off2) =>
        match decodeAnyLoop fuel buff (fun _ v2 v3 => jsEq v2 v3) none off2 off2 [] with
        | .div => .div
        | .err e => .err e
        | .ok vals off3 =>
          match vals.head? with
          | none => .err "No first element"
          | some v => dictLoop fuel buff off3 (objInsert dict k v)
    else .ok dict (jsAdd c 1)

end

/-- `decodeAny`: run the loop from `offset` with no last value; `decodeList`
and `dictLoop` above call the loop with exactly these initial values. -/
def decodeAny (fuel : Nat) (buff : List Nat) (off : JSNum)
    (wf : Option Bencodable → JSNum → JSNum → Bool) : Res (List Bencodable) :=
  decodeAnyLoop fuel buff wf none off off []

/-- `decodeBuffer`: iterate any-value dispatch while the byte at the current
offset is defined. -/
def decodeBuffer (fuel : Nat) (buff : List Nat) (off : JSNum) : Res (List Bencodable) :=
  decodeAny fuel buff off (fun _ _ v3 => (jsGet buff v3).isSome)

/-- The emptiness guard of `decode`: `v.length >= 0` (always true). -/
def emptyGuard (buff : List Nat) : Bool := decide ((0 : Int) ≤ (buff.length : Int))

/-- Top-level `decode`: guard, decode from offset `0`, and project the list
of decoded top-level values (`.map(v => v[0])`). `none` means the decoding
did not finish within `fuel`. -/
def decodeTop (fuel : Nat) (buff : List Nat) : Option (Except String (List Bencodable)) :=
  if emptyGuard buff then
    match decodeBuffer fuel buff (some 0) with
    | .div => none
    | .err e => some (.error e)
    | .ok vals _ => some (.ok vals)
  else some (.error "Data is empty")

/-! ## Validity and dictionary-order-blind equality -/

mutual

/-- A value tree is valid in the sense of the round-trip claim: integers are
non-negative whole numbers, no booleans, and dictionary keys are unique. -/
def validB : Bencodable → Bool
  | .int q => decide (0 ≤ q) && decide (q.den = 1)
  | .bool _ => false
  | .str _ => true
  | .list l => validElems l
  | .dict d => decide ((d.map Prod.fst).Nodup) && validEntries d
termination_by v => sizeOf v
decreasing_by
  all_goals (simp; try omega)

/-- Validity of a list of values. -/
def validElems : List Bencodable → Bool
  | [] => true
  | v :: vs => validB v && validElems vs
termination_by l => sizeOf l
decreasing_by
  all_goals (simp; try omega)

/-- Validity of the values of an association list. -/
def validEntries : List (List Nat × Bencodable) → Bool
  | [] => true
  | (_, v) :: ps => validB v && validEntries ps
termination_by d => sizeOf d
decreasing_by
  all_goals (simp; try omega)

end

/-- Key order on dictionary entries. -/
def PairKeyLe (p q : List Nat × Bencodable) : Prop := KeyLe p.1 q.1

instance : DecidableRel PairKeyLe := fun p q =>
  inferInstanceAs (Decidable (keyLeB p.1 q.1 = true))

mutual

/-- Normal form for comparing trees with dictionaries taken as unordered
mappings: sort every dictionary's entries by key, recursively. Two trees
are equal as unordered mappings exactly when their normal forms are equal
(dictionary keys being unique). -/
def normalize : Bencodable → Bencodable
  | .int q => .int q
  | .bool b => .bool b
  | .str s => .str s
  | .list l => .list (normElems l)
  | .dict d => .dict (List.insertionSort PairKeyLe (normEntries d))
termination_by v => sizeOf v
decreasing_by
  all_goals (simp; try omega)

/-- `normalize` mapped over a list. -/
def normElems : List Bencodable → List Bencodable
  | [] => []
  | v :: vs => normalize v :: normElems vs
termination_by l => sizeOf l
decreasing_by
  all_goals (simp; try omega)

/-- `normalize` mapped over the values of an association list. -/
def normEntries : List (List Nat × Bencodable) → List (List Nat × Bencodable)
  | [] => []
  | (k, v) :: ps => (k, normalize v) :: normEntries ps
termination_by d => sizeOf d
decreasing_by
  all_goals (simp; try omega)

end

/-! ## Unfolding equations for the well-founded definitions -/

@[simp] theorem encode_int (q : Rat) : encode (.int q) = encodeInt q := by
  rw [encode.eq_def]

@[simp] theorem encode_bool (b : Bool) : encode (.bool b) = encodeBoolean b := by
  rw [encode.eq_def]

@[simp] theorem encode_str (s : List Nat) : encode (.str s) = .ok (encodeString s) := by
  rw [encode.eq_def]

@[simp] theorem encode_list (l : List Bencodable) : encode (.list l) = encodeArray l := by
  rw [encode.eq_def]

@[simp] theorem encode_dict (d : List (List Nat × Bencodable)) :
    encode (.dict d) = encodeMap d := by
  rw [encode.eq_def]

@[simp] theorem encodeArray_eq (l : List Bencodable) :
    encodeArray l =
      match encodeElems l with
      | .error e => .error e
      | .ok bs => .ok (listStartByte :: bs ++ [typeEndByte]) := by
  rw [encodeArray.eq_def]

@[simp] theorem encodeElems_nil : encodeElems [] = .ok [] := by
  rw [encodeElems.eq_def]

@[simp] theorem encodeElems_cons (v : Bencodable) (vs : List Bencodable) :
    encodeElems (v :: vs) =
      match encode v with
      | .error e => .error e
      | .ok b =>
        match encodeElems vs with
        | .error e => .error e
        | .ok bs => .ok (b ++ bs) := by
  rw [encodeElems.eq_def]

@[simp] theorem encodeMap_eq (d : List (List Nat × Bencodable)) :
    encodeMap d =
      match encodeEntries (sortJS (d.map Prod.fst)) d with
      | .error e => .error e
      | .ok bs => .ok (dictStartByte :: bs ++ [typeEndByte]) := by
  rw [encodeMap.eq_def]

@[simp] theorem encodeEntries_nil (d : List (List Nat × Bencodable)) :
    encodeEntries [] d = .ok [] := by
  rw [encodeEntries.eq_def]

@[simp] theorem encodeEntries_cons (k : List Nat) (ks : List (List Nat))
    (d : List (List Nat × Bencodable)) :
    encodeEntries (k :: ks) d =
      match mapGet k d with
      | none => .error "Missing value for key"
      | some v =>
        match encode v with
        | .error e => .error e
        | .ok vb =>
          match encodeEntries ks d with
          | .error e => .error e
          | .ok rest => .ok (encodeString k ++ vb ++ rest) := by
  rw [encodeEntries.eq_def]
  split
  next h => exact absurd h (List.cons_ne_nil _ _)
  next k2 ks2 h =>
    injection h with h1 h2
    subst h1
    subst h2
    split
    next h => rw [h]
    next v h => rw [h]

@[simp] theorem validB_int (q : Rat) :
    validB (.int q) = (decide (0 ≤ q) && decide (q.den = 1)) := by
  rw [validB.eq_def]

@[simp] theorem validB_bool (b : Bool) : validB (.bool b) = false := by
  rw [validB.eq_def]

@[simp] theorem validB_str (s : List Nat) : validB (.str s) = true := by
  rw [validB.eq_def]

@[simp] theorem validB_list (l : List Bencodable) : validB (.list l) = validElems l := by
  rw [validB.eq_def]

@[simp] theorem validB_dict (d : List (List Nat × Bencodable)) :
    validB (.dict d) = (decide ((d.map Prod.fst).Nodup) && validEntries d) := by
  rw [validB.eq_def]

@[simp] theorem validElems_nil : validElems [] = true := by
  rw [validElems.eq_def]

@[simp] theorem validElems_cons (v : Bencodable) (vs : List Bencodable) :
    validElems (v :: vs) = (validB v && validElems vs) := by
  rw [validElems.eq_def]

@[simp] theorem validEntries_nil : validEntries [] = true := by
  rw [validEntries.eq_def]

@[simp] theorem validEntries_cons (k : List Nat) (v : Bencodable)
    (ps : List (List Nat × Bencodable)) :
    validEntries ((k, v) :: ps) = (validB v && validEntries ps) := by
  rw [validEntries.eq_def]

@[simp] theorem normalize_int (q : Rat) : normalize (.int q) = .int q := by
  rw [normalize.eq_def]

@[simp] theorem normalize_bool (b : Bool) : normalize (.bool b) = .bool b := by
  rw [normalize.eq_def]

@[simp] theorem normalize_str (s : List Nat) : normalize (.str s) = .str s := by
  rw [normalize.eq_def]

@[simp] theorem normalize_list (l : List Bencodable) :
    normalize (.list l) = .list (normElems l) := by
  rw [normalize.eq_def]

@[simp] theorem normalize_dict (d : List (List Nat × Bencodable)) :
    normalize (.dict d) = .dict (List.insertionSort PairKeyLe (normEntries d)) := by
  rw [normalize.eq_def]

@[simp] theorem normElems_nil : normElems [] = [] := by
  rw [normElems.eq_def]

@[simp] theorem normElems_cons (v : Bencodable) (vs : List Bencodable) :
    normElems (v :: vs) = normalize v :: normElems vs := by
  rw [normElems.eq_def]

@[simp] theorem normEntries_nil : normEntries [] = [] := by
  rw [normEntries.eq_def]

@[simp] theorem normEntries_cons (k : List Nat) (v : Bencodable)
    (ps : List (List Nat × Bencodable)) :
    normEntries ((k, v) :: ps) = (k, normalize v) :: normEntries ps := by
  rw [normEntries.eq_def]

/-! ## Offset, slice and digit toolkit -/

/-- A natural-number position as a `JSNum` offset. -/
def jpos (n : Nat) : JSNum := some (n : Int)

@[simp] theorem jsGet_jpos (buff : List Nat) (j : Nat) :
    jsGet buff (jpos j) = buff[j]? := by
  have h : ¬ ((j : Int) < 0) := by omega
  simp [jsGet, jpos, h]

@[simp] theorem jsAdd_jpos (j : Nat) (n : Nat) :
    jsAdd (jpos j) (n : Int) = jpos (j + n) := by
  simp [jsAdd, jpos]

theorem jsEq_jpos (j k : Nat) : jsEq (jpos j) (jpos k) = decide (j = k) := by
  simp [jsEq, jpos]

/-- Read inside the middle section of a three-part buffer. -/
theorem getElem?_mid (pre mid post : List Nat) (i : Nat) (h : i < mid.length) :
    (pre ++ mid ++ post)[pre.length + i]? = mid[i]? := by
  rw [List.append_assoc, List.getElem?_append_right (by omega)]
  have h2 : pre.length + i - pre.length = i := by omega
  rw [h2, List.getElem?_append_left h]

/-- Read right past a two-part buffer's first section. -/
theorem getElem?_snd (pre rest : List Nat) (i : Nat) :
    (pre ++ rest)[pre.length + i]? = rest[i]? := by
  rw [List.getElem?_append_right (by omega)]
  congr 1
  omega

/-- Slicing out exactly the middle section of a three-part buffer. -/
theorem jsSlice_exact (pre mid post : List Nat) :
    jsSlice (pre ++ mid ++ post) (jpos pre.length) (jpos (pre.length + mid.length)) =
      mid := by
  unfold jsSlice jpos
  have h1 : clampIdx (pre ++ mid ++ post).length (some ((pre.length : Nat) : Int)) =
      pre.length := by
    simp [clampIdx]
  have h2 : clampIdx (pre ++ mid ++ post).length
      (some (((pre.length + mid.length : Nat)) : Int)) = pre.length + mid.length := by
    simp only [clampIdx]
    rw [if_neg (by omega)]
    rw [show (((pre.length + mid.length : Nat)) : Int).toNat = pre.length + mid.length
      by omega]
    rw [min_eq_left]
    simp only [List.length_append]
    omega
  rw [h1, h2, List.take_left' (by simp), List.drop_left' rfl]

/-- Slicing with the requested end past the buffer: Node clamps to the end. -/
theorem jsSlice_clamp (pre mid : List Nat) (L : Nat) (h : mid.length ≤ L) :
    jsSlice (pre ++ mid) (jpos pre.length) (jpos (pre.length + L)) = mid := by
  unfold jsSlice jpos
  have h1 : clampIdx (pre ++ mid).length (some ((pre.length : Nat) : Int)) =
      pre.length := by
    simp [clampIdx]
  have h2 : clampIdx (pre ++ mid).length
      (some (((pre.length + L : Nat)) : Int)) = (pre ++ mid).length := by
    simp only [clampIdx]
    rw [if_neg (by omega)]
    rw [show (((pre.length + L : Nat)) : Int).toNat = pre.length + L by omega]
    rw [min_eq_right]
    simp only [List.length_append]
    omega
  rw [h1, h2, List.take_length, List.drop_left' rfl]

theorem natDigitBytes_mem {n b : Nat} (hb : b ∈ natDigitBytes n) : 48 ≤ b ∧ b ≤ 57 := by
  unfold natDigitBytes at hb
  by_cases h : n = 0
  · simp [h] at hb
    omega
  · rw [if_neg h] at hb
    simp only [List.mem_map, List.mem_reverse] at hb
    obtain ⟨d, hd, rfl⟩ := hb
    have := Nat.digits_lt_base (by omega) hd
    omega

theorem natDigitBytes_ne_nil (n : Nat) : natDigitBytes n ≠ [] := by
  unfold natDigitBytes
  by_cases h : n = 0
  · simp [h]
  · rw [if_neg h]
    simp only [ne_eq, List.map_eq_nil_iff, List.reverse_eq_nil_iff]
    exact Nat.digits_ne_nil_iff_ne_zero.mpr h

theorem foldl_digits (ds : List Nat) (acc : Nat) :
    List.foldl (fun a d => 10 * a + (d - 48)) acc (ds.reverse.map (· + 48)) =
      acc * 10 ^ ds.length + Nat.ofDigits 10 ds := by
  induction ds generalizing acc with
  | nil => simp [Nat.ofDigits]
  | cons d t ih =>
    simp only [List.reverse_cons, List.map_append, List.foldl_append, List.map_cons,
      List.map_nil, List.foldl_cons, List.foldl_nil, ih, Nat.ofDigits_cons,
      List.length_cons]
    have h48 : d + 48 - 48 = d := by omega
    rw [h48]
    ring

theorem natFromDigits_natDigitBytes (n : Nat) :
    natFromDigits (natDigitBytes n) = n := by
  unfold natFromDigits natDigitBytes
  by_cases h : n = 0
  · simp [h]
  · rw [if_neg h, foldl_digits, Nat.ofDigits_digits]
    simp

theorem parseIntCore_digits (ds : List Nat) (h0 : ds ≠ [])
    (hall : ∀ b ∈ ds, 48 ≤ b ∧ b ≤ 57) :
    parseIntCore 1 ds = some ((natFromDigits ds : Nat) : Int) := by
  unfold parseIntCore
  have ht : ds.takeWhile isDigitByte = ds := by
    rw [List.takeWhile_eq_self_iff]
    intro b hb
    have := hall b hb
    simp [isDigitByte]
    omega
  rw [ht]
  simp [h0]

theorem parseIntJS_digits (ds : List Nat) (h0 : ds ≠ [])
    (hall : ∀ b ∈ ds, 48 ≤ b ∧ b ≤ 57) :
    parseIntJS ds = some ((natFromDigits ds : Nat) : Int) := by
  unfold parseIntJS
  obtain ⟨d, t, rfl⟩ : ∃ d t, ds = d :: t := by
    cases ds with
    | nil => exact absurd rfl h0
    | cons d t => exact ⟨d, t, rfl⟩
  have hd := hall d (by simp)
  have hws : ¬ (d ∈ wsBytes) := by
    simp [wsBytes]
    omega
  rw [List.dropWhile_cons_of_neg (by simpa using hws)]
  have h43 : ¬ ((d :: t).head? = some 43) := by simp; omega
  have h45 : ¬ ((d :: t).head? = some 45) := by simp; omega
  rw [if_neg h43, if_neg h45]
  exact parseIntCore_digits _ h0 hall

theorem parseIntJS_natDigitBytes (n : Nat) :
    parseIntJS (natDigitBytes n) = some (n : Int) := by
  rw [parseIntJS_digits _ (natDigitBytes_ne_nil n) (fun b hb => natDigitBytes_mem hb),
    natFromDigits_natDigitBytes]

/-- Read the byte right after a first section. -/
theorem getElem?_at (pre : List Nat) (b : Nat) (rest : List Nat) :
    (pre ++ b :: rest)[pre.length]? = some b := by
  have h := getElem?_snd pre (b :: rest) 0
  simpa using h

/-! ## `findNextDelimiter` and `decodeString` -/

theorem findDelimAux_append (ds : List Nat) (hds : ∀ b ∈ ds, b ≠ delimiterByte) :
    ∀ (pre rest : List Nat),
      findDelimAux (pre ++ ds ++ delimiterByte :: rest)
          ((pre ++ ds ++ delimiterByte :: rest).length - pre.length) pre.length =
        .ok (((pre.length + ds.length : Nat)) : Int) := by
  induction ds with
  | nil =>
    intro pre rest
    simp only [List.nil_append, List.append_nil]
    have hlen : (pre ++ delimiterByte :: rest).length - pre.length = rest.length + 1 := by
      simp
    rw [hlen]
    rw [findDelimAux]
    rw [getElem?_at]
    simp
  | cons d t ih =>
    intro pre rest
    have hd : d ≠ delimiterByte := hds d (by simp)
    have hlen : (pre ++ (d :: t) ++ delimiterByte :: rest).length - pre.length =
        (t.length + rest.length + 2 - 1) + 1 := by
      simp
      omega
    rw [hlen]
    rw [findDelimAux]
    have hat : (pre ++ (d :: t) ++ delimiterByte :: rest)[pre.length]? = some d := by
      have : pre ++ (d :: t) ++ delimiterByte :: rest =
          pre ++ d :: (t ++ delimiterByte :: rest) := by simp
      rw [this, getElem?_at]
    rw [hat]
    simp only [if_neg hd]
    have hre : pre ++ (d :: t) ++ delimiterByte :: rest =
        (pre ++ [d]) ++ t ++ delimiterByte :: rest := by simp
    have ihh := ih (fun b hb => hds b (by simp [hb])) (pre ++ [d]) rest
    rw [hre]
    have hlen2 : t.length + rest.length + 2 - 1 =
        ((pre ++ [d]) ++ t ++ delimiterByte :: rest).length - (pre ++ [d]).length := by
      simp only [List.length_append, List.length_cons, List.length_nil]
      omega
    have hpl : pre.length + 1 = (pre ++ [d]).length := by simp
    rw [hlen2, hpl, ihh]
    congr 1
    simp
    omega

theorem findNextDelimiter_append (pre ds rest : List Nat)
    (hds : ∀ b ∈ ds, b ≠ delimiterByte) :
    findNextDelimiter (pre ++ ds ++ delimiterByte :: rest) (jpos pre.length) =
      .ok (((pre.length + ds.length : Nat)) : Int) := by
  have h0 : ¬ ((pre.length : Int) < 0) := by omega
  simp only [findNextDelimiter, jpos]
  rw [if_neg h0]
  rw [show ((pre.length : Nat) : Int).toNat = pre.length by omega]
  exact findDelimAux_append ds hds pre rest

theorem natDigitBytes_ne_delim {n b : Nat} (hb : b ∈ natDigitBytes n) :
    b ≠ delimiterByte := by
  have := natDigitBytes_mem hb
  unfold delimiterByte
  omega

/-- Decoding a well-formed string at its position inside a larger buffer. -/
theorem decodeString_at (pre s post : List Nat) :
    decodeString (pre ++ encodeString s ++ post) (jpos pre.length) =
      .ok (s, jpos (pre.length + (encodeString s).length)) := by
  set L := s.length with hL
  set ds := natDigitBytes L with hds
  have hB : pre ++ encodeString s ++ post = pre ++ ds ++ delimiterByte :: (s ++ post) := by
    simp [encodeString, hds, hL]
  rw [hB]
  unfold decodeString decodeStringLength
  rw [findNextDelimiter_append pre ds (s ++ post) (fun b hb => natDigitBytes_ne_delim hb)]
  simp only []
  have hslice : jsSlice (pre ++ ds ++ delimiterByte :: (s ++ post))
      (jpos pre.length) (some (((pre.length + ds.length : Nat)) : Int)) = ds :=
    jsSlice_exact pre ds (delimiterByte :: (s ++ post))
  rw [hslice]
  have hparse : parseIntJS ds = some ((L : Nat) : Int) := by
    rw [hds]; exact parseIntJS_natDigitBytes L
  rw [hparse]
  unfold decodeStringContent
  have hdel : jsGet (pre ++ ds ++ delimiterByte :: (s ++ post))
      (some (((pre.length + ds.length : Nat)) : Int)) = some delimiterByte := by
    rw [show (some (((pre.length + ds.length : Nat)) : Int) : JSNum) =
      jpos (pre.length + ds.length) from rfl]
    rw [jsGet_jpos]
    have : pre ++ ds ++ delimiterByte :: (s ++ post) =
        (pre ++ ds) ++ delimiterByte :: (s ++ post) := by simp
    rw [this]
    have hplen : pre.length + ds.length = (pre ++ ds).length := by simp
    rw [hplen, getElem?_at]
  rw [if_pos hdel]
  have hslice2 : jsSlice (pre ++ ds ++ delimiterByte :: (s ++ post))
      (some ((((pre.length + ds.length : Nat)) : Int) + 1))
      (some ((((pre.length + ds.length : Nat)) : Int) + 1 + (L : Int))) = s := by
    have he1 : ((((pre.length + ds.length : Nat)) : Int) + 1) =
        (((pre ++ ds ++ [delimiterByte]).length : Nat) : Int) := by
      simp <;> (push_cast; ring)
    have he2 : ((((pre.length + ds.length : Nat)) : Int) + 1 + (L : Int)) =
        ((((pre ++ ds ++ [delimiterByte]).length + s.length : Nat)) : Int) := by
      simp [hL]
      push_cast
      ring
    have hB2 : pre ++ ds ++ delimiterByte :: (s ++ post) =
        (pre ++ ds ++ [delimiterByte]) ++ s ++ post := by simp
    rw [he2, he1, hB2]
    exact jsSlice_exact (pre ++ ds ++ [delimiterByte]) s post
  simp only [Option.map_some']
  rw [hslice2]
  have hoff : ((((pre.length + ds.length : Nat)) : Int) + 1 + (L : Int)) =
      (((pre.length + (encodeString s).length : Nat)) : Int) := by
    simp [encodeString, hds, hL]
    push_cast
    ring
  rw [hoff]
  rfl

/-- Decoding a string whose declared length exceeds the available bytes:
the slice clamps to the end of the buffer and the call still succeeds. -/
theorem decodeString_truncated (L : Nat) (s : List Nat) (h : s.length ≤ L) :
    decodeString (natDigitBytes L ++ delimiterByte :: s) (jpos 0) =
      .ok (s, jpos ((natDigitBytes L).length + 1 + L)) := by
  set ds := natDigitBytes L with hds
  have hB : ds ++ delimiterByte :: s = [] ++ ds ++ delimiterByte :: s := by simp
  unfold decodeString decodeStringLength
  rw [show (jpos 0 : JSNum) = jpos ([] : List Nat).length from rfl, hB]
  rw [findNextDelimiter_append [] ds s (fun b hb => natDigitBytes_ne_delim hb)]
  simp only []
  have hslice : jsSlice ([] ++ ds ++ delimiterByte :: s) (jpos ([] : List Nat).length)
      (some ((((([] : List Nat)).length + ds.length : Nat)) : Int)) = ds :=
    jsSlice_exact [] ds (delimiterByte :: s)
  rw [hslice]
  have hparse : parseIntJS ds = some ((L : Nat) : Int) := by
    rw [hds]; exact parseIntJS_natDigitBytes L
  rw [hparse]
  unfold decodeStringContent
  have hdel : jsGet ([] ++ ds ++ delimiterByte :: s)
      (some (((([] : List Nat).length + ds.length : Nat)) : Int)) = some delimiterByte := by
    rw [show (some (((([] : List Nat).length + ds.length : Nat)) : Int) : JSNum) =
      jpos (([] : List Nat).length + ds.length) from rfl]
    rw [jsGet_jpos]
    have h1 : [] ++ ds ++ delimiterByte :: s = ds ++ delimiterByte :: s := by simp
    have h2 : ([] : List Nat).length + ds.length = ds.length := by simp
    rw [h1, h2, getElem?_at]
  rw [if_pos hdel]
  simp only [Option.map_some']
  have hslice2 : jsSlice ([] ++ ds ++ delimiterByte :: s)
      (some ((((([] : List Nat)).length + ds.length : Nat) : Int) + 1))
      (some ((((([] : List Nat)).length + ds.length : Nat) : Int) + 1 + (L : Int))) = s := by
    have he1 : (((((([] : List Nat)).length + ds.length : Nat)) : Int) + 1) =
        (((ds ++ [delimiterByte]).length : Nat) : Int) := by
      simp <;> (push_cast; ring)
    have he2 : (((((([] : List Nat)).length + ds.length : Nat)) : Int) + 1 + (L : Int)) =
        ((((ds ++ [delimiterByte]).length + L : Nat)) : Int) := by
      simp <;> (push_cast; ring)
    have hB2 : [] ++ ds ++ delimiterByte :: s = (ds ++ [delimiterByte]) ++ s := by simp
    rw [he2, he1, hB2]
    exact jsSlice_clamp (ds ++ [delimiterByte]) s L h
  rw [hslice2]
  have hoff : ((((([] : List Nat)).length + ds.length : Nat) : Int) + 1 + (L : Int)) =
      (((ds.length + 1 + L : Nat)) : Int) := by
    simp <;> (push_cast; ring)
  rw [hoff]
  rfl

/-! ## `decodeInteger` -/

theorem intScan_append (ds : List Nat) (hds : ∀ b ∈ ds, b ≠ typeEndByte) :
    ∀ (pre rest : List Nat) (sOff : Int) (fuel : Nat),
      ds.length + 1 ≤ fuel →
      jsGet (pre ++ ds ++ typeEndByte :: rest) (some sOff) ≠ none →
      intScan (pre ++ ds ++ typeEndByte :: rest) sOff fuel ((pre.length : Nat) : Int) =
        some (.ok (((pre.length + ds.length : Nat)) : Int)) := by
  induction ds with
  | nil =>
    intro pre rest sOff fuel hf _hin
    obtain ⟨f, rfl⟩ : ∃ f, fuel = f + 1 := ⟨fuel - 1, by omega⟩
    rw [intScan]
    have he : jsGet (pre ++ [] ++ typeEndByte :: rest) (some ((pre.length : Nat) : Int)) =
        some typeEndByte := by
      rw [show (some ((pre.length : Nat) : Int) : JSNum) = jpos pre.length from rfl,
        jsGet_jpos]
      have : pre ++ [] ++ typeEndByte :: rest = pre ++ typeEndByte :: rest := by simp
      rw [this, getElem?_at]
    rw [if_pos he]
    simp
  | cons d t ih =>
    intro pre rest sOff fuel hf hin
    obtain ⟨f, rfl⟩ : ∃ f, fuel = f + 1 := ⟨fuel - 1, by omega⟩
    rw [intScan]
    have hd : d ≠ typeEndByte := hds d (by simp)
    have hat : jsGet (pre ++ (d :: t) ++ typeEndByte :: rest)
        (some ((pre.length : Nat) : Int)) = some d := by
      rw [show (some ((pre.length : Nat) : Int) : JSNum) = jpos pre.length from rfl,
        jsGet_jpos]
      have : pre ++ (d :: t) ++ typeEndByte :: rest =
          pre ++ d :: (t ++ typeEndByte :: rest) := by simp
      rw [this, getElem?_at]
    rw [if_neg (by rw [hat]; simp [hd])]
    have hin2 : jsGet (pre ++ (d :: t) ++ typeEndByte :: rest) (some sOff) ≠ none := hin
    obtain ⟨b, hb⟩ : ∃ b, jsGet (pre ++ (d :: t) ++ typeEndByte :: rest) (some sOff) =
        some b := by
      cases hx : jsGet (pre ++ (d :: t) ++ typeEndByte :: rest) (some sOff) with
      | none => exact absurd hx hin2
      | some b => exact ⟨b, rfl⟩
    rw [hb]
    have hre : pre ++ (d :: t) ++ typeEndByte :: rest =
        (pre ++ [d]) ++ t ++ typeEndByte :: rest := by simp
    have hc1 : ((pre.length : Nat) : Int) + 1 = (((pre ++ [d]).length : Nat) : Int) := by
      simp <;> (push_cast; ring)
    rw [hre, hc1]
    rw [hre] at hin
    have := ih (fun b hb2 => hds b (by simp [hb2])) (pre ++ [d]) rest sOff f
      (by simp at hf ⊢; omega) hin
    rw [this]
    have : (pre ++ [d]).length + t.length = pre.length + (d :: t).length := by
      simp
      omega
    rw [this]

theorem natDigitBytes_ne_typeEnd {n b : Nat} (hb : b ∈ natDigitBytes n) :
    b ≠ typeEndByte := by
  have := natDigitBytes_mem hb
  unfold typeEndByte
  omega

/-- `decodeInteger` on a framed payload `i<payload>e` (the payload holding no
`e` byte): the result is exactly `parseInt` of the payload filtered through
the `NaN` and negativity checks. -/
theorem decodeInteger_framed (payload rest pre : List Nat)
    (hp : ∀ b ∈ payload, b ≠ typeEndByte) (fuel : Nat)
    (hf : payload.length + 2 ≤ fuel) :
    decodeInteger fuel (pre ++ intStartByte :: payload ++ typeEndByte :: rest)
        (jpos pre.length) =
      match parseIntJS payload with
      | none => .err "Not an integer"
      | some n =>
        if n < 0 then .err "is negative"
        else .ok n (some ((((pre.length + payload.length + 1 : Nat)) : Int) + 1)) := by
  obtain ⟨f, rfl⟩ : ∃ f, fuel = f + 1 := ⟨fuel - 1, by omega⟩
  have hB : pre ++ intStartByte :: payload ++ typeEndByte :: rest =
      pre ++ intStartByte :: (payload ++ typeEndByte :: rest) := by simp
  have hat : jsGet (pre ++ intStartByte :: payload ++ typeEndByte :: rest)
      (jpos pre.length) = some intStartByte := by
    rw [jsGet_jpos, hB, getElem?_at]
  simp only [jpos] at hat ⊢
  rw [decodeInteger, hat]
  simp only []
  rw [if_pos trivial]
  have hre : pre ++ intStartByte :: payload ++ typeEndByte :: rest =
      (pre ++ [intStartByte]) ++ payload ++ typeEndByte :: rest := by simp
  have hc1 : ((pre.length : Nat) : Int) + 1 = (((pre ++ [intStartByte]).length : Nat) : Int) := by
    simp <;> (push_cast; ring)
  have hin : jsGet ((pre ++ [intStartByte]) ++ payload ++ typeEndByte :: rest)
      (some ((((pre ++ [intStartByte]).length : Nat)) : Int)) ≠ none := by
    rw [show (some ((((pre ++ [intStartByte]).length : Nat)) : Int) : JSNum) =
      jpos (pre ++ [intStartByte]).length from rfl, jsGet_jpos]
    have hlt : (pre ++ [intStartByte]).length <
        ((pre ++ [intStartByte]) ++ payload ++ typeEndByte :: rest).length := by
      simp
    rw [List.getElem?_eq_getElem hlt]
    simp
  have hscan := intScan_append payload hp (pre ++ [intStartByte]) rest
    (((pre ++ [intStartByte]).length : Nat) : Int) f (by omega) hin
  rw [hre, hc1, hscan]
  simp only []
  have hsliceEq : jsSlice ((pre ++ [intStartByte]) ++ payload ++ typeEndByte :: rest)
      (some ((((pre ++ [intStartByte]).length : Nat)) : Int))
      (some ((((pre ++ [intStartByte]).length + payload.length : Nat)) : Int)) =
      payload := by
    rw [show (some ((((pre ++ [intStartByte]).length : Nat)) : Int) : JSNum) =
      jpos (pre ++ [intStartByte]).length from rfl]
    rw [show (some ((((pre ++ [intStartByte]).length + payload.length : Nat)) : Int) :
      JSNum) = jpos ((pre ++ [intStartByte]).length + payload.length) from rfl]
    exact jsSlice_exact (pre ++ [intStartByte]) payload (typeEndByte :: rest)
  rw [hsliceEq]
  have hoff : ((((pre ++ [intStartByte]).length + payload.length : Nat)) : Int) + 1 =
      ((((pre.length + payload.length + 1 : Nat)) : Int) + 1) := by
    simp <;> (push_cast; ring)
  cases hps : parseIntJS payload with
  | none => rfl
  | some n =>
    simp only []
    by_cases hn : n < 0
    · rw [if_pos hn, if_pos hn]
    · rw [if_neg hn, if_neg hn, hoff]

/-- `decodeInteger` on the encoding of a non-negative integer. -/
theorem decodeInteger_at (pre post : List Nat) (n : Nat) (fuel : Nat)
    (hf : (natDigitBytes n).length + 2 ≤ fuel) :
    decodeInteger fuel (pre ++ (intStartByte :: natDigitBytes n ++ [typeEndByte]) ++ post)
        (jpos pre.length) =
      .ok (n : Int)
        (some ((((pre.length + (natDigitBytes n).length + 1 : Nat)) : Int) + 1)) := by
  have hB : pre ++ (intStartByte :: natDigitBytes n ++ [typeEndByte]) ++ post =
      pre ++ intStartByte :: natDigitBytes n ++ typeEndByte :: post := by simp
  rw [hB, decodeInteger_framed (natDigitBytes n) post pre
    (fun b hb => natDigitBytes_ne_typeEnd hb) fuel hf]
  rw [parseIntJS_natDigitBytes]
  simp only []
  rw [if_neg (by omega)]

/-! ## Divergence of `decodeInteger` on an unterminated integer -/

theorem i5_no_typeEnd (c : Int) : jsGet [intStartByte, 53] (some c) ≠ some typeEndByte := by
  simp only [jsGet]
  by_cases hc : c < 0
  · simp [hc]
  · rw [if_neg hc]
    rcases h : c.toNat with _ | n
    · decide
    · rcases n with _ | m
      · decide
      · simp

theorem intScan_i5 : ∀ (g : Nat) (c : Int), intScan [intStartByte, 53] 1 g c = none := by
  intro g
  induction g with
  | zero => intro c; rfl
  | succ g ih =>
    intro c
    rw [intScan]
    rw [if_neg (i5_no_typeEnd c)]
    rw [show jsGet [intStartByte, 53] (some 1) = some 53 from rfl]
    exact ih (c + 1)

/-! ## The key order is a decidable linear order -/

theorem keyLeB_total : ∀ a b : List Nat, keyLeB a b = true ∨ keyLeB b a = true := by
  intro a
  induction a with
  | nil => intro b; left; rfl
  | cons x xs ih =>
    intro b
    cases b with
    | nil => right; rfl
    | cons y ys =>
      rw [keyLeB, keyLeB]
      rcases lt_trichotomy x y with h | h | h
      · left; rw [if_pos h]
      · subst h
        simp only [if_neg (lt_irrefl x)]
        exact ih ys
      · right; rw [if_pos h]

theorem keyLeB_trans : ∀ a b c : List Nat,
    keyLeB a b = true → keyLeB b c = true → keyLeB a c = true := by
  intro a
  induction a with
  | nil => intro b c _ _; rfl
  | cons x xs ih =>
    intro b c hab hbc
    cases b with
    | nil => rw [keyLeB] at hab; exact absurd hab (by simp)
    | cons y ys =>
      cases c with
      | nil => rw [keyLeB] at hbc; exact absurd hbc (by simp)
      | cons z zs =>
        rw [keyLeB] at hab hbc ⊢
        by_cases hxy : x < y
        · have hxz : x < z := by
            by_cases hyz : y < z
            · omega
            · rw [if_neg hyz] at hbc
              by_cases hzy : z < y
              · rw [if_pos hzy] at hbc; exact absurd hbc (by simp)
              · omega
          rw [if_pos hxz]
        · rw [if_neg hxy] at hab
          by_cases hyx : y < x
          · rw [if_pos hyx] at hab; exact absurd hab (by simp)
          · rw [if_neg hyx] at hab
            have hxy2 : x = y := by omega
            subst hxy2
            by_cases hxz : x < z
            · rw [if_pos hxz]
            · rw [if_neg hxz] at hbc ⊢
              by_cases hzx : z < x
              · rw [if_pos hzx] at hbc; exact absurd hbc (by simp)
              · rw [if_neg hzx] at hbc ⊢
                exact ih ys zs hab hbc

theorem keyLeB_antisymm : ∀ a b : List Nat,
    keyLeB a b = true → keyLeB b a = true → a = b := by
  intro a
  induction a with
  | nil =>
    intro b _ hba
    cases b with
    | nil => rfl
    | cons y ys => rw [keyLeB] at hba; exact absurd hba (by simp)
  | cons x xs ih =>
    intro b hab hba
    cases b with
    | nil => rw [keyLeB] at hab; exact absurd hab (by simp)
    | cons y ys =>
      rw [keyLeB] at hab hba
      by_cases hxy : x < y
      · rw [if_neg (by omega), if_pos hxy] at hba
        exact absurd hba (by simp)
      · rw [if_neg hxy] at hab
        by_cases hyx : y < x
        · rw [if_pos hyx] at hab; exact absurd hab (by simp)
        · rw [if_neg hyx] at hab
          rw [if_neg hyx, if_neg hxy] at hba
          have : x = y := by omega
          subst this
          rw [ih ys hab hba]

instance : IsTotal (List Nat) KeyLe := ⟨keyLeB_total⟩

instance : IsTrans (List Nat) KeyLe := ⟨keyLeB_trans⟩

instance : IsAntisymm (List Nat) KeyLe := ⟨keyLeB_antisymm⟩

theorem sortJS_sorted (l : List (List Nat)) : List.Sorted KeyLe (sortJS l) :=
  List.sorted_insertionSort KeyLe l

theorem sortJS_perm (l : List (List Nat)) : (sortJS l).Perm l :=
  List.perm_insertionSort KeyLe l

/-- Two key multisets in any order sort identically. -/
theorem sortJS_eq_of_perm {l1 l2 : List (List Nat)} (h : l1.Perm l2) :
    sortJS l1 = sortJS l2 :=
  List.eq_of_perm_of_sorted ((sortJS_perm l1).trans (h.trans (sortJS_perm l2).symm))
    (sortJS_sorted l1) (sortJS_sorted l2)

/-! ## `mapGet` on permuted association lists -/

theorem mapGet_eq_none_iff {k : List Nat} {d : List (List Nat × Bencodable)} :
    mapGet k d = none ↔ k ∉ d.map Prod.fst := by
  induction d with
  | nil => simp [mapGet]
  | cons p ps ih =>
    obtain ⟨a, b⟩ := p
    rw [mapGet]
    by_cases hk : k = a
    · subst hk
      simp
    · rw [if_neg hk]
      simp [hk, ih]

theorem mapGet_isSome_iff {k : List Nat} {d : List (List Nat × Bencodable)} :
    (mapGet k d).isSome = true ↔ k ∈ d.map Prod.fst := by
  constructor
  · intro hs
    cases h : mapGet k d with
    | none => rw [h] at hs; simp at hs
    | some v => exact List.mem_map.mpr ⟨(k, v), mem_of_mapGet h, rfl⟩
  · intro hm
    cases h : mapGet k d with
    | some v => simp [h]
    | none => exact absurd hm (mapGet_eq_none_iff.mp h)

/-- On association lists with unique keys, `mapGet` only depends on the
underlying set of pairs. -/
theorem mapGet_perm {d1 d2 : List (List Nat × Bencodable)} (h : d1.Perm d2)
    (hn : (d1.map Prod.fst).Nodup) (k : List Nat) : mapGet k d1 = mapGet k d2 := by
  induction h with
  | nil => rfl
  | cons p h2 ih =>
    obtain ⟨a, b⟩ := p
    rw [mapGet, mapGet]
    by_cases hk : k = a
    · rw [if_pos hk, if_pos hk]
    · rw [if_neg hk, if_neg hk]
      exact ih (by simp at hn; exact hn.2)
  | swap p q l =>
    obtain ⟨a, b⟩ := p
    obtain ⟨c, e⟩ := q
    have hac : c ≠ a := by
      intro h
      subst h
      simp at hn
    show (if k = c then some e else if k = a then some b else mapGet k l) =
      (if k = a then some b else if k = c then some e else mapGet k l)
    by_cases hk : k = a
    · rw [hk]
      rw [if_neg (fun h : a = c => hac h.symm), if_pos rfl, if_pos rfl]
    · by_cases hkc : k = c
      · rw [hkc]
        rw [if_pos rfl, if_neg (fun h : c = a => hac h), if_pos rfl]
      · rw [if_neg hkc, if_neg hk, if_neg hk, if_neg hkc]
  | trans h1 h2 ih1 ih2 =>
    rw [ih1 hn]
    exact ih2 ((h1.map Prod.fst).nodup_iff.mp hn)

/-! ## Sorted dictionaries determine their entry lists -/

/-- Strict key order on dictionary entries. -/
def PairKeyLt (p q : List Nat × Bencodable) : Prop := KeyLe p.1 q.1 ∧ p.1 ≠ q.1

instance : IsTotal (List Nat × Bencodable) PairKeyLe :=
  ⟨fun p q => keyLeB_total p.1 q.1⟩

instance : IsTrans (List Nat × Bencodable) PairKeyLe :=
  ⟨fun _ _ _ h1 h2 => keyLeB_trans _ _ _ h1 h2⟩

theorem pairwiseLt_of_sorted_nodup {l : List (List Nat × Bencodable)}
    (hs : List.Sorted PairKeyLe l) (hn : (l.map Prod.fst).Nodup) :
    l.Pairwise PairKeyLt := by
  have hne : l.Pairwise (fun p q : List Nat × Bencodable => p.1 ≠ q.1) :=
    (List.pairwise_map.mp hn)
  exact List.Pairwise.and hs hne

theorem mapGet_head {k : List Nat} {v : Bencodable} {t : List (List Nat × Bencodable)} :
    mapGet k ((k, v) :: t) = some v := by
  rw [mapGet, if_pos rfl]

theorem mapGet_cons_ne {k a : List Nat} {b : Bencodable}
    {t : List (List Nat × Bencodable)} (h : k ≠ a) :
    mapGet k ((a, b) :: t) = mapGet k t := by
  rw [mapGet, if_neg h]

/-- Two entry lists that are strictly sorted by key and agree on all key
reads are equal. -/
theorem eq_of_pairwiseLt_mapGet :
    ∀ (l1 l2 : List (List Nat × Bencodable)), l1.Pairwise PairKeyLt →
      l2.Pairwise PairKeyLt → (∀ k, mapGet k l1 = mapGet k l2) → l1 = l2 := by
  intro l1
  induction l1 with
  | nil =>
    intro l2 _ _ hl
    cases l2 with
    | nil => rfl
    | cons p t =>
      obtain ⟨k, v⟩ := p
      have := hl k
      rw [mapGet_head] at this
      simp [mapGet] at this
  | cons p t1 ih =>
    intro l2 h1 h2 hl
    obtain ⟨k, v⟩ := p
    cases l2 with
    | nil =>
      have := hl k
      rw [mapGet_head] at this
      simp [mapGet] at this
    | cons q t2 =>
      obtain ⟨k2, v2⟩ := q
      have hk12 : k = k2 := by
        by_contra hne
        have hv : mapGet k ((k2, v2) :: t2) = some v := by
          rw [← hl k, mapGet_head]
        rw [mapGet_cons_ne hne] at hv
        have hmem : (k, v) ∈ t2 := mem_of_mapGet hv
        have hlt2 : PairKeyLt (k2, v2) (k, v) :=
          (List.pairwise_cons.mp h2).1 _ hmem
        have hv2 : mapGet k2 ((k, v) :: t1) = some v2 := by
          rw [hl k2, mapGet_head]
        rw [mapGet_cons_ne (fun h => hne h.symm)] at hv2
        have hmem2 : (k2, v2) ∈ t1 := mem_of_mapGet hv2
        have hlt1 : PairKeyLt (k, v) (k2, v2) :=
          (List.pairwise_cons.mp h1).1 _ hmem2
        exact hne (keyLeB_antisymm _ _ hlt1.1 hlt2.1)
      subst hk12
      have hvv : v = v2 := by
        have := hl k
        rw [mapGet_head, mapGet_head] at this
        exact Option.some.inj this
      subst hvv
      have hknot1 : k ∉ t1.map Prod.fst := by
        intro hmem
        obtain ⟨p, hp, hpk⟩ := List.mem_map.mp hmem
        exact ((List.pairwise_cons.mp h1).1 p hp).2 hpk.symm
      have hknot2 : k ∉ t2.map Prod.fst := by
        intro hmem
        obtain ⟨p, hp, hpk⟩ := List.mem_map.mp hmem
        exact ((List.pairwise_cons.mp h2).1 p hp).2 hpk.symm
      have ht : t1 = t2 := by
        apply ih t2 (List.pairwise_cons.mp h1).2 (List.pairwise_cons.mp h2).2
        intro k0
        by_cases hk0 : k0 = k
        · subst hk0
          rw [mapGet_eq_none_iff.mpr hknot1, mapGet_eq_none_iff.mpr hknot2]
        · have := hl k0
          rw [mapGet_cons_ne hk0, mapGet_cons_ne hk0] at this
          exact this
      rw [ht]

/-! ## `normalize` facts -/

theorem normEntries_keys (d : List (List Nat × Bencodable)) :
    (normEntries d).map Prod.fst = d.map Prod.fst := by
  induction d with
  | nil => simp
  | cons p ps ih =>
    obtain ⟨k, v⟩ := p
    simp [ih]

theorem mapGet_normEntries (k : List Nat) (d : List (List Nat × Bencodable)) :
    mapGet k (normEntries d) = (mapGet k d).map normalize := by
  induction d with
  | nil => simp [mapGet]
  | cons p ps ih =>
    obtain ⟨a, b⟩ := p
    rw [normEntries_cons, mapGet, mapGet]
    by_cases hk : k = a
    · rw [if_pos hk, if_pos hk]
      rfl
    · rw [if_neg hk, if_neg hk]
      exact ih

/-- Entries read back in sorted key order with normalize-equal values are the
same dictionary up to normalization. -/
theorem normalize_dict_eq {d entries : List (List Nat × Bencodable)}
    (hn : (d.map Prod.fst).Nodup)
    (hkeys : entries.map Prod.fst = sortJS (d.map Prod.fst))
    (hval : ∀ k v, mapGet k entries = some v →
      ∃ w, mapGet k d = some w ∧ normalize v = normalize w) :
    normalize (.dict entries) = normalize (.dict d) := by
  rw [normalize_dict, normalize_dict]
  congr 1
  have hnE : (entries.map Prod.fst).Nodup := by
    rw [hkeys]
    exact ((sortJS_perm _).nodup_iff).mpr hn
  have hsortE : List.Sorted PairKeyLe (List.insertionSort PairKeyLe (normEntries entries)) :=
    List.sorted_insertionSort PairKeyLe _
  have hsortD : List.Sorted PairKeyLe (List.insertionSort PairKeyLe (normEntries d)) :=
    List.sorted_insertionSort PairKeyLe _
  have hpermE : (List.insertionSort PairKeyLe (normEntries entries)).Perm
      (normEntries entries) := List.perm_insertionSort PairKeyLe _
  have hpermD : (List.insertionSort PairKeyLe (normEntries d)).Perm (normEntries d) :=
    List.perm_insertionSort PairKeyLe _
  have hnodE : ((List.insertionSort PairKeyLe (normEntries entries)).map Prod.fst).Nodup := by
    rw [(hpermE.map Prod.fst).nodup_iff, normEntries_keys]
    exact hnE
  have hnodD : ((List.insertionSort PairKeyLe (normEntries d)).map Prod.fst).Nodup := by
    rw [(hpermD.map Prod.fst).nodup_iff, normEntries_keys]
    exact hn
  apply eq_of_pairwiseLt_mapGet
  · exact pairwiseLt_of_sorted_nodup hsortE hnodE
  · exact pairwiseLt_of_sorted_nodup hsortD hnodD
  · intro k
    rw [mapGet_perm hpermE hnodE k, mapGet_perm hpermD hnodD k,
      mapGet_normEntries, mapGet_normEntries]
    cases hE : mapGet k entries with
    | some v =>
      obtain ⟨w, hw, hnw⟩ := hval k v hE
      rw [hw]
      simp [hnw]
    | none =>
      have hkE : k ∉ entries.map Prod.fst := mapGet_eq_none_iff.mp hE
      have hkD : k ∉ d.map Prod.fst := by
        intro hmem
        exact hkE (by rw [hkeys]; exact ((sortJS_perm _).mem_iff).mpr hmem)
      rw [mapGet_eq_none_iff.mpr hkD]

/-! ## Shape of encoder output -/

theorem encodeInt_ok {q : Rat} (h0 : 0 ≤ q) (h1 : q.den = 1) :
    encodeInt q = .ok (intStartByte :: natDigitBytes q.num.toNat ++ [typeEndByte]) := by
  unfold encodeInt
  rw [if_neg (not_not_intro h0), if_neg (not_not_intro h1)]

theorem digit_mem_stringStart {b : Nat} (h1 : 48 ≤ b) (h2 : b ≤ 57) :
    b ∈ stringStartBytes := by
  simp [stringStartBytes]
  omega

theorem encodeString_head (s : List Nat) :
    ∃ b bs, encodeString s = b :: bs ∧ b ∈ stringStartBytes := by
  unfold encodeString
  obtain ⟨d, t, hd⟩ : ∃ d t, natDigitBytes s.length = d :: t := by
    cases h : natDigitBytes s.length with
    | nil => exact absurd h (natDigitBytes_ne_nil _)
    | cons d t => exact ⟨d, t, rfl⟩
  refine ⟨d, t ++ delimiterByte :: s, ?_, ?_⟩
  · rw [hd]; simp
  · have := natDigitBytes_mem (hd ▸ List.mem_cons_self d t)
    exact digit_mem_stringStart this.1 this.2

/-- The lead byte of any valid value's encoding is one of the four
recognized discriminators, and is never `type_end`. -/
theorem encode_head {v : Bencodable} {bv : List Nat} (hv : validB v = true)
    (he : encode v = .ok bv) :
    ∃ b bs, bv = b :: bs ∧
      (b = dictStartByte ∨ b = listStartByte ∨ b = intStartByte ∨
        b ∈ stringStartBytes) := by
  cases v with
  | int q =>
    rw [encode_int] at he
    rw [validB_int] at hv
    simp only [Bool.and_eq_true, decide_eq_true_eq] at hv
    rw [encodeInt_ok hv.1 hv.2] at he
    cases he
    exact ⟨intStartByte, _, rfl, Or.inr (Or.inr (Or.inl rfl))⟩
  | bool b => rw [validB_bool] at hv; exact absurd hv (by simp)
  | str s =>
    rw [encode_str] at he
    cases he
    obtain ⟨b, bs, hcons, hmem⟩ := encodeString_head s
    exact ⟨b, bs, hcons, Or.inr (Or.inr (Or.inr hmem))⟩
  | list l =>
    rw [encode_list, encodeArray_eq] at he
    cases hx : encodeElems l with
    | error e => rw [hx] at he; cases he
    | ok bs =>
      rw [hx] at he
      cases he
      exact ⟨listStartByte, _, rfl, Or.inr (Or.inl rfl)⟩
  | dict d =>
    rw [encode_dict, encodeMap_eq] at he
    cases hx : encodeEntries (sortJS (d.map Prod.fst)) d with
    | error e => rw [hx] at he; cases he
    | ok bs =>
      rw [hx] at he
      cases he
      exact ⟨dictStartByte, _, rfl, Or.inl rfl⟩

theorem head_ne_typeEnd {b : Nat}
    (h : b = dictStartByte ∨ b = listStartByte ∨ b = intStartByte ∨
      b ∈ stringStartBytes) : b ≠ typeEndByte := by
  rcases h with h | h | h | h
  · rw [h]; decide
  · rw [h]; decide
  · rw [h]; decide
  · simp [stringStartBytes] at h
    unfold typeEndByte
    omega

/-! ## Validity projections and strong induction -/

theorem validElems_mem {l : List Bencodable} (h : validElems l = true) :
    ∀ v ∈ l, validB v = true := by
  induction l with
  | nil => intro v hv; cases hv
  | cons x xs ih =>
    rw [validElems_cons] at h
    simp only [Bool.and_eq_true] at h
    intro v hv
    cases hv with
    | head => exact h.1
    | tail _ hv2 => exact ih h.2 v hv2

theorem validEntries_mem {d : List (List Nat × Bencodable)}
    (h : validEntries d = true) : ∀ p ∈ d, validB p.2 = true := by
  induction d with
  | nil => intro p hp; cases hp
  | cons x xs ih =>
    obtain ⟨k, v⟩ := x
    rw [validEntries_cons] at h
    simp only [Bool.and_eq_true] at h
    intro p hp
    cases hp with
    | head => exact h.1
    | tail _ hp2 => exact ih h.2 p hp2

/-- Strong induction over the nested value tree. -/
theorem Bencodable.strongInduction (P : Bencodable → Prop)
    (hint : ∀ q, P (.int q)) (hbool : ∀ b, P (.bool b)) (hstr : ∀ s, P (.str s))
    (hlist : ∀ l, (∀ v ∈ l, P v) → P (.list l))
    (hdict : ∀ d, (∀ p ∈ d, P p.2) → P (.dict d)) : ∀ v, P v := by
  have H : ∀ n v, sizeOf v ≤ n → P v := by
    intro n
    induction n with
    | zero =>
      intro v hv
      cases v <;> simp at hv
    | succ n ih =>
      intro v hv
      cases v with
      | int q => exact hint q
      | bool b => exact hbool b
      | str s => exact hstr s
      | list l =>
        refine hlist l (fun w hw => ih w ?_)
        have := List.sizeOf_lt_of_mem hw
        simp at hv
        omega
      | dict d =>
        refine hdict d (fun p hp => ih p.2 ?_)
        have h1 := List.sizeOf_lt_of_mem hp
        obtain ⟨k, w⟩ := p
        simp at hv h1 ⊢
        omega
  exact fun v => H (sizeOf v) v le_rfl

/-! ## The step lemma: one loop iteration decodes one encoded value -/

/-- `StepOK v`: whenever the loop of `decodeAny` stands at the start of the
encoding of `v` (and its `whileFn` lets it run), one round of the loop
decodes a value `w` with the same normal form as `v` and moves the offset
past the encoding. -/
def StepOK (v : Bencodable) : Prop :=
  ∀ bv, validB v = true → encode v = .ok bv →
  ∃ w F, normalize w = normalize v ∧
    ∀ (pre post : List Nat) (wfn : Option Bencodable → JSNum → JSNum → Bool)
      (last : Option Bencodable) (oOff : JSNum) (acc : List Bencodable)
      (fuel : Nat), F ≤ fuel →
      wfn last oOff (jpos pre.length) = true →
      decodeAnyLoop (fuel + 1) (pre ++ bv ++ post) wfn last oOff (jpos pre.length) acc =
        decodeAnyLoop fuel (pre ++ bv ++ post) wfn (some w) (jpos pre.length)
          (jpos (pre.length + bv.length)) (acc ++ [w])

theorem intCast_eq_self {q : Rat} (h0 : 0 ≤ q) (h1 : q.den = 1) :
    (((q.num.toNat : Int) : Rat)) = q := by
  have hnum : (0 : Int) ≤ q.num := Rat.num_nonneg.mpr h0
  rw [Int.toNat_of_nonneg hnum]
  conv_rhs => rw [← Rat.num_div_den q]
  rw [h1]
  simp

theorem stepOK_int (q : Rat) : StepOK (.int q) := by
  intro bv hv he
  rw [validB_int] at hv
  simp only [Bool.and_eq_true, decide_eq_true_eq] at hv
  rw [encode_int, encodeInt_ok hv.1 hv.2] at he
  cases he
  set ds := natDigitBytes q.num.toNat with hds
  refine ⟨.int (((q.num.toNat : Int) : Rat)), ds.length + 2, ?_, ?_⟩
  · rw [normalize_int, normalize_int, intCast_eq_self hv.1 hv.2]
  · intro pre post wfn last oOff acc fuel hF hwf
    rw [decodeAnyLoop, if_pos hwf]
    have hat : jsGet (pre ++ (intStartByte :: ds ++ [typeEndByte]) ++ post)
        (jpos pre.length) = some intStartByte := by
      rw [jsGet_jpos]
      have : pre ++ (intStartByte :: ds ++ [typeEndByte]) ++ post =
          pre ++ intStartByte :: (ds ++ [typeEndByte] ++ post) := by simp
      rw [this, getElem?_at]
    rw [hat]
    simp only []
    rw [if_neg (by decide), if_neg (by decide), if_pos trivial]
    rw [decodeInteger_at pre post q.num.toNat fuel (by rw [hds] at hF; omega)]
    simp only []
    have hoff : (some ((((pre.length + ds.length + 1 : Nat)) : Int) + 1) : JSNum) =
        jpos (pre.length + (intStartByte :: ds ++ [typeEndByte]).length) := by
      simp [jpos]
      push_cast
      ring
    rw [hoff]

theorem stepOK_str (s : List Nat) : StepOK (.str s) := by
  intro bv _hv he
  rw [encode_str] at he
  cases he
  refine ⟨.str s, 0, rfl, ?_⟩
  intro pre post wfn last oOff acc fuel _hF hwf
  rw [decodeAnyLoop, if_pos hwf]
  obtain ⟨b, bs, hcons, hmem⟩ := encodeString_head s
  have hbb := List.mem_iff_get.mp hmem
  have hb48 : 48 ≤ b ∧ b ≤ 57 := by
    simp [stringStartBytes] at hmem
    omega
  have hat : jsGet (pre ++ encodeString s ++ post) (jpos pre.length) = some b := by
    rw [jsGet_jpos]
    have : pre ++ encodeString s ++ post = pre ++ b :: (bs ++ post) := by
      rw [hcons]; simp
    rw [this, getElem?_at]
  rw [hat]
  simp only []
  rw [if_neg (by unfold dictStartByte; omega), if_neg (by unfold listStartByte; omega),
    if_neg (by unfold intStartByte; omega), if_pos hmem]
  rw [decodeString_at pre s post]

/-! ## Chaining steps over a sequence of encoded values -/

/-- Running the loop with the list `whileFn` over the concatenated element
encodings consumes them all and stops at the closing `type_end`. -/
theorem chainList (vs : List Bencodable) (hstep : ∀ v ∈ vs, StepOK v) :
    ∀ bvs, validElems vs = true → encodeElems vs = .ok bvs →
    ∃ ws F, List.Forall₂ (fun w v => normalize w = normalize v) ws vs ∧
      ∀ (pre post : List Nat) (last : Option Bencodable) (oOff : JSNum)
        (acc : List Bencodable) (fuel : Nat), F ≤ fuel →
        decodeAnyLoop fuel (pre ++ bvs ++ typeEndByte :: post)
            (fun _ _ v3 =>
              jsGet (pre ++ bvs ++ typeEndByte :: post) v3 != some typeEndByte)
            last oOff (jpos pre.length) acc =
          .ok (acc ++ ws) (jpos (pre.length + bvs.length)) := by
  induction vs with
  | nil =>
    intro bvs _ he
    rw [encodeElems_nil] at he
    cases he
    refine ⟨[], 1, List.Forall₂.nil, ?_⟩
    intro pre post last oOff acc fuel hF
    obtain ⟨f, rfl⟩ : ∃ f, fuel = f + 1 := ⟨fuel - 1, by omega⟩
    rw [decodeAnyLoop]
    have hend : jsGet (pre ++ [] ++ typeEndByte :: post) (jpos pre.length) =
        some typeEndByte := by
      rw [jsGet_jpos]
      have hB : pre ++ ([] : List Nat) ++ typeEndByte :: post =
          pre ++ typeEndByte :: post := by simp
      rw [hB, getElem?_at]
    rw [if_neg (by rw [hend]; simp)]
    simp

  | cons v vs ih =>
    intro bvs hval he
    rw [validElems_cons] at hval
    simp only [Bool.and_eq_true] at hval
    rw [encodeElems_cons] at he
    cases hx1 : encode v with
    | error e => rw [hx1] at he; cases he
    | ok bv =>
      rw [hx1] at he
      cases hx2 : encodeElems vs with
      | error e => rw [hx2] at he; cases he
      | ok bvs2 =>
        rw [hx2] at he
        cases he
        obtain ⟨w, F1, hnw, hstepEq⟩ := hstep v (by simp) bv hval.1 hx1
        obtain ⟨ws2, F2, hall, hloop⟩ := ih (fun u hu => hstep u (by simp [hu]))
          bvs2 hval.2 hx2
        refine ⟨w :: ws2, max F1 F2 + 1, List.Forall₂.cons hnw hall, ?_⟩
        intro pre post last oOff acc fuel hF
        obtain ⟨f, rfl⟩ : ∃ f, fuel = f + 1 := ⟨fuel - 1, by omega⟩
        obtain ⟨b, bs, hcons, hrec⟩ := encode_head hval.1 hx1
        have hBeq : pre ++ (bv ++ bvs2) ++ typeEndByte :: post =
            pre ++ bv ++ (bvs2 ++ typeEndByte :: post) := by simp
        rw [hBeq]
        have hat : jsGet (pre ++ bv ++ (bvs2 ++ typeEndByte :: post))
            (jpos pre.length) = some b := by
          rw [jsGet_jpos]
          have hB2 : pre ++ bv ++ (bvs2 ++ typeEndByte :: post) =
              pre ++ b :: (bs ++ (bvs2 ++ typeEndByte :: post)) := by
            rw [hcons]; simp
          rw [hB2, getElem?_at]
        have hwf : (jsGet (pre ++ bv ++ (bvs2 ++ typeEndByte :: post))
            (jpos pre.length) != some typeEndByte) = true := by
          rw [hat]
          simp [head_ne_typeEnd hrec]
        have hmaxf : max F1 F2 ≤ f := Nat.le_of_succ_le_succ hF
        rw [hstepEq pre (bvs2 ++ typeEndByte :: post) _ last oOff acc f
          (le_trans (le_max_left _ _) hmaxf) hwf]
        have hB3 : pre ++ bv ++ (bvs2 ++ typeEndByte :: post) =
            (pre ++ bv) ++ bvs2 ++ typeEndByte :: post := by simp
        have hlen1 : pre.length + bv.length = (pre ++ bv).length := by simp
        rw [hB3, hlen1]
        rw [hloop (pre ++ bv) post (some w) (jpos pre.length) (acc ++ [w]) f
          (le_trans (le_max_right _ _) hmaxf)]
        have h1 : (acc ++ [w]) ++ ws2 = acc ++ w :: ws2 := by simp
        have h2 : (pre ++ bv).length + bvs2.length = pre.length + (bv ++ bvs2).length := by
          simp
          omega
        rw [h1, h2]

/-- Running the loop with the top-level `whileFn` over a buffer holding
exactly the concatenated element encodings consumes them all and stops at
the end of the buffer. -/
theorem chainTop (vs : List Bencodable) (hstep : ∀ v ∈ vs, StepOK v) :
    ∀ bvs, validElems vs = true → encodeElems vs = .ok bvs →
    ∃ ws F, List.Forall₂ (fun w v => normalize w = normalize v) ws vs ∧
      ∀ (pre : List Nat) (last : Option Bencodable) (oOff : JSNum)
        (acc : List Bencodable) (fuel : Nat), F ≤ fuel →
        decodeAnyLoop fuel (pre ++ bvs)
            (fun _ _ v3 => (jsGet (pre ++ bvs) v3).isSome)
            last oOff (jpos pre.length) acc =
          .ok (acc ++ ws) (jpos (pre.length + bvs.length)) := by
  induction vs with
  | nil =>
    intro bvs _ he
    rw [encodeElems_nil] at he
    cases he
    refine ⟨[], 1, List.Forall₂.nil, ?_⟩
    intro pre last oOff acc fuel hF
    obtain ⟨f, rfl⟩ : ∃ f, fuel = f + 1 := ⟨fuel - 1, by omega⟩
    rw [decodeAnyLoop]
    have hend : jsGet (pre ++ ([] : List Nat)) (jpos pre.length) = none := by
      rw [jsGet_jpos]
      apply List.getElem?_eq_none
      simp
    rw [if_neg (by rw [hend]; simp)]
    simp

  | cons v vs ih =>
    intro bvs hval he
    rw [validElems_cons] at hval
    simp only [Bool.and_eq_true] at hval
    rw [encodeElems_cons] at he
    cases hx1 : encode v with
    | error e => rw [hx1] at he; cases he
    | ok bv =>
      rw [hx1] at he
      cases hx2 : encodeElems vs with
      | error e => rw [hx2] at he; cases he
      | ok bvs2 =>
        rw [hx2] at he
        cases he
        obtain ⟨w, F1, hnw, hstepEq⟩ := hstep v (by simp) bv hval.1 hx1
        obtain ⟨ws2, F2, hall, hloop⟩ := ih (fun u hu => hstep u (by simp [hu]))
          bvs2 hval.2 hx2
        refine ⟨w :: ws2, max F1 F2 + 1, List.Forall₂.cons hnw hall, ?_⟩
        intro pre last oOff acc fuel hF
        obtain ⟨f, rfl⟩ : ∃ f, fuel = f + 1 := ⟨fuel - 1, by omega⟩
        obtain ⟨b, bs, hcons, hrec⟩ := encode_head hval.1 hx1
        have hBeq : pre ++ (bv ++ bvs2) = pre ++ bv ++ bvs2 := by simp
        rw [hBeq]
        have hat : jsGet (pre ++ bv ++ bvs2) (jpos pre.length) = some b := by
          rw [jsGet_jpos]
          have hB2 : pre ++ bv ++ bvs2 = pre ++ b :: (bs ++ bvs2) := by
            rw [hcons]; simp
          rw [hB2, getElem?_at]
        have hwf : (jsGet (pre ++ bv ++ bvs2) (jpos pre.length)).isSome = true := by
          rw [hat]
          rfl
        have hmaxf : max F1 F2 ≤ f := Nat.le_of_succ_le_succ hF
        rw [hstepEq pre bvs2 _ last oOff acc f
          (le_trans (le_max_left _ _) hmaxf) hwf]
        have hB3 : pre ++ bv ++ bvs2 = (pre ++ bv) ++ bvs2 := by simp
        have hlen1 : pre.length + bv.length = (pre ++ bv).length := by simp
        rw [hB3, hlen1]
        rw [hloop (pre ++ bv) (some w) (jpos pre.length) (acc ++ [w]) f
          (le_trans (le_max_right _ _) hmaxf)]
        have h1 : (acc ++ [w]) ++ ws2 = acc ++ w :: ws2 := by simp
        have h2 : (pre ++ bv).length + bvs2.length = pre.length + (bv ++ bvs2).length := by
          simp
          omega
        rw [h1, h2]

@[simp] theorem jsAdd_jpos_one (j : Nat) : jsAdd (jpos j) 1 = jpos (j + 1) := by
  simp [jsAdd, jpos]

theorem normElems_eq_of_forall₂ {ws vs : List Bencodable}
    (h : List.Forall₂ (fun w v => normalize w = normalize v) ws vs) :
    normElems ws = normElems vs := by
  induction h with
  | nil => rfl
  | cons h1 _ ih => rw [normElems_cons, normElems_cons, h1, ih]

theorem stepOK_list (l : List Bencodable) (hstep : ∀ v ∈ l, StepOK v) :
    StepOK (.list l) := by
  intro bv hv he
  rw [validB_list] at hv
  rw [encode_list, encodeArray_eq] at he
  cases hx : encodeElems l with
  | error e => rw [hx] at he; cases he
  | ok bs =>
    rw [hx] at he
    cases he
    obtain ⟨ws, F, hall, hloop⟩ := chainList l hstep bs hv hx
    refine ⟨.list ws, F + 1, ?_, ?_⟩
    · rw [normalize_list, normalize_list, normElems_eq_of_forall₂ hall]
    · intro pre post wfn last oOff acc fuel hF hwf
      have hat : jsGet (pre ++ (listStartByte :: bs ++ [typeEndByte]) ++ post)
          (jpos pre.length) = some listStartByte := by
        rw [jsGet_jpos]
        have hB : pre ++ (listStartByte :: bs ++ [typeEndByte]) ++ post =
            pre ++ listStartByte :: (bs ++ [typeEndByte] ++ post) := by simp
        rw [hB, getElem?_at]
      have hdl : decodeList fuel (pre ++ (listStartByte :: bs ++ [typeEndByte]) ++ post)
          (jpos pre.length) =
          .ok ws (jpos (pre.length + (listStartByte :: bs ++ [typeEndByte]).length)) := by
        obtain ⟨g, rfl⟩ : ∃ g, fuel = g + 1 := ⟨fuel - 1, by omega⟩
        have hat2 := hat
        simp only [jpos] at hat2 ⊢
        rw [decodeList, hat2]
        simp only []
        rw [if_pos trivial]
        have hc1 : ((pre.length : Nat) : Int) + 1 =
            (((pre ++ [listStartByte]).length : Nat) : Int) := by
          simp <;> (push_cast; ring)
        rw [hc1]
        have hB : pre ++ (listStartByte :: bs ++ [typeEndByte]) ++ post =
            (pre ++ [listStartByte]) ++ bs ++ typeEndByte :: post := by simp
        rw [hB]
        rw [show (some (((pre ++ [listStartByte]).length : Nat) : Int) : JSNum) =
          jpos (pre ++ [listStartByte]).length from rfl]
        rw [hloop (pre ++ [listStartByte]) post none (jpos (pre ++ [listStartByte]).length)
          [] g (by omega)]
        simp only [List.nil_append]
        rw [jsAdd_jpos_one]
        have hlen : (pre ++ [listStartByte]).length + bs.length + 1 =
            pre.length + (listStartByte :: bs ++ [typeEndByte]).length := by
          simp
          omega
        rw [hlen]
        rfl
      rw [decodeAnyLoop, if_pos hwf, hat]
      simp only []
      rw [if_neg (by decide), if_pos trivial]
      rw [hdl]

/-! ## The dictionary loop -/

@[simp] theorem mapGet_nil (k : List Nat) : mapGet k [] = none := rfl

theorem mapGet_append_none {k : List Nat} {acc l2 : List (List Nat × Bencodable)}
    (h : mapGet k acc = none) : mapGet k (acc ++ l2) = mapGet k l2 := by
  induction acc with
  | nil => simp
  | cons p ps ih =>
    obtain ⟨a, b⟩ := p
    rw [List.cons_append]
    rw [mapGet] at h ⊢
    by_cases hk : k = a
    · rw [if_pos hk] at h; cases h
    · rw [if_neg hk] at h ⊢
      exact ih h

theorem objInsert_fresh {d : List (List Nat × Bencodable)} {k : List Nat}
    {v : Bencodable} (h : mapGet k d = none) : objInsert d k v = d ++ [(k, v)] := by
  unfold objInsert
  rw [h]
  simp

theorem jsEq_jpos_self (a : Nat) : jsEq (jpos a) (jpos a) = true := by
  simp [jsEq, jpos]

theorem jsEq_jpos_ne {a b : Nat} (h : a ≠ b) : jsEq (jpos a) (jpos b) = false := by
  simp [jsEq, jpos]
  omega

/-- Running `dictLoop` over the encoded entries for a list of distinct keys
consumes them all, inserting each decoded pair, and stops at `type_end`. -/
theorem dictChain (d : List (List Nat × Bencodable))
    (hstep : ∀ p ∈ d, StepOK p.2) (hvald : validEntries d = true) :
    ∀ ks : List (List Nat), ks.Nodup → (∀ k ∈ ks, k ∈ d.map Prod.fst) →
    ∀ bs, encodeEntries ks d = .ok bs →
    ∃ entries F, entries.map Prod.fst = ks ∧
      (∀ k v, mapGet k entries = some v →
        ∃ w, mapGet k d = some w ∧ normalize v = normalize w) ∧
      ∀ (pre post : List Nat) (acc : List (List Nat × Bencodable)) (fuel : Nat),
        F ≤ fuel → (∀ k ∈ ks, mapGet k acc = none) →
        dictLoop fuel (pre ++ bs ++ typeEndByte :: post) (jpos pre.length) acc =
          .ok (acc ++ entries) (jpos (pre.length + bs.length + 1)) := by
  intro ks
  induction ks with
  | nil =>
    intro _ _ bs he
    rw [encodeEntries_nil] at he
    cases he
    refine ⟨[], 1, rfl, by intro k v h; simp at h, ?_⟩
    intro pre post acc fuel hF _
    obtain ⟨f, rfl⟩ : ∃ f, fuel = f + 1 := ⟨fuel - 1, by omega⟩
    rw [dictLoop]
    have hend : jsGet (pre ++ [] ++ typeEndByte :: post) (jpos pre.length) =
        some typeEndByte := by
      rw [jsGet_jpos]
      have hB : pre ++ ([] : List Nat) ++ typeEndByte :: post =
          pre ++ typeEndByte :: post := by simp
      rw [hB, getElem?_at]
    rw [if_neg (by rw [hend]; simp)]
    rw [jsAdd_jpos_one]
    simp
  | cons k ks ih =>
    intro hnd hkeys bs he
    rw [encodeEntries_cons] at he
    cases hv : mapGet k d with
    | none => rw [hv] at he; cases he
    | some v =>
      rw [hv] at he
      simp only [] at he
      cases hx1 : encode v with
      | error e => rw [hx1] at he; cases he
      | ok vb =>
        rw [hx1] at he
        cases hx2 : encodeEntries ks d with
        | error e => rw [hx2] at he; cases he
        | ok rest =>
          rw [hx2] at he
          cases he
          have hvalv : validB v = true := validEntries_mem hvald (k, v) (mem_of_mapGet hv)
          obtain ⟨w, F1, hnw, hstepEq⟩ := hstep (k, v) (mem_of_mapGet hv) vb hvalv hx1
          obtain ⟨entries2, F2, hkeys2, hlookup2, hloop2⟩ :=
            ih (List.nodup_cons.mp hnd).2 (fun u hu => hkeys u (by simp [hu])) rest hx2
          obtain ⟨bh, bsK, hconsK, hmemK⟩ := encodeString_head k
          obtain ⟨vh, vbs, hconsV, _⟩ := encode_head hvalv hx1
          refine ⟨(k, w) :: entries2, max (F1 + 2) F2 + 1, by simp [hkeys2], ?_, ?_⟩
          · intro k0 v0 h0
            rw [mapGet] at h0
            by_cases hk0 : k0 = k
            · rw [if_pos hk0] at h0
              cases h0
              exact ⟨v, hk0 ▸ hv, hnw⟩
            · rw [if_neg hk0] at h0
              exact hlookup2 k0 v0 h0
          · intro pre post acc fuel hF hacc
            obtain ⟨f, rfl⟩ : ∃ f, fuel = f + 1 := ⟨fuel - 1, by omega⟩
            have hmaxf : max (F1 + 2) F2 ≤ f := Nat.le_of_succ_le_succ hF
            have hf1 : F1 + 2 ≤ f := le_trans (le_max_left _ _) hmaxf
            have hf2 : F2 ≤ f := le_trans (le_max_right _ _) hmaxf
            rw [dictLoop]
            have hB1 : pre ++ (encodeString k ++ vb ++ rest) ++ typeEndByte :: post =
                pre ++ encodeString k ++ (vb ++ (rest ++ typeEndByte :: post)) := by simp
            rw [hB1]
            have hat : jsGet (pre ++ encodeString k ++ (vb ++ (rest ++ typeEndByte :: post)))
                (jpos pre.length) = some bh := by
              rw [jsGet_jpos]
              have hB2 : pre ++ encodeString k ++ (vb ++ (rest ++ typeEndByte :: post)) =
                  pre ++ bh :: (bsK ++ (vb ++ (rest ++ typeEndByte :: post))) := by
                rw [hconsK]; simp
              rw [hB2, getElem?_at]
            have hbh : 48 ≤ bh ∧ bh ≤ 57 := by
              simp [stringStartBytes] at hmemK
              omega
            rw [if_pos (by rw [hat]; simp; unfold typeEndByte; omega)]
            have hB3 : pre ++ encodeString k ++ (vb ++ (rest ++ typeEndByte :: post)) =
                pre ++ encodeString k ++ (vb ++ (rest ++ typeEndByte :: post)) := rfl
            rw [decodeString_at pre k (vb ++ (rest ++ typeEndByte :: post))]
            simp only []
            set pre2 := pre ++ encodeString k with hpre2
            have hlen2 : pre.length + (encodeString k).length = pre2.length := by
              simp [hpre2]
            rw [hlen2]
            have hone : decodeAnyLoop f
                (pre ++ encodeString k ++ (vb ++ (rest ++ typeEndByte :: post)))
                (fun _ v2 v3 => jsEq v2 v3) none (jpos pre2.length) (jpos pre2.length) [] =
                .ok [w] (jpos (pre2.length + vb.length)) := by
              obtain ⟨f1, rfl⟩ : ∃ f1, f = f1 + 1 := ⟨f - 1, by omega⟩
              have hB4 : pre ++ encodeString k ++ (vb ++ (rest ++ typeEndByte :: post)) =
                  pre2 ++ vb ++ (rest ++ typeEndByte :: post) := by
                simp [hpre2]
              rw [hB4]
              rw [hstepEq pre2 (rest ++ typeEndByte :: post) _ none (jpos pre2.length) []
                f1 (by omega) (jsEq_jpos_self pre2.length)]
              obtain ⟨f2, rfl⟩ : ∃ f2, f1 = f2 + 1 := ⟨f1 - 1, by omega⟩
              rw [decodeAnyLoop]
              have hvb : vb.length ≠ 0 := by rw [hconsV]; simp
              rw [if_neg (by rw [jsEq_jpos_ne (by omega)]; simp)]
              simp
            rw [hone]
            simp only [List.head?]
            rw [objInsert_fresh (hacc k (by simp))]
            have hB5 : pre ++ encodeString k ++ (vb ++ (rest ++ typeEndByte :: post)) =
                (pre2 ++ vb) ++ rest ++ typeEndByte :: post := by
              simp [hpre2]
            rw [hB5]
            have hlen3 : pre2.length + vb.length = (pre2 ++ vb).length := by simp
            rw [hlen3]
            rw [hloop2 (pre2 ++ vb) post (acc ++ [(k, w)]) f hf2 ?_]
            · have h1 : (acc ++ [(k, w)]) ++ entries2 = acc ++ (k, w) :: entries2 := by simp
              have h2 : (pre2 ++ vb).length + rest.length + 1 =
                  pre.length + (encodeString k ++ vb ++ rest).length + 1 := by
                simp [hpre2]
                omega
              rw [h1, h2]
            · intro k2 hk2
              have hkne : k2 ≠ k := by
                intro hkk
                exact (List.nodup_cons.mp hnd).1 (hkk ▸ hk2)
              rw [mapGet_append_none (hacc k2 (by simp [hk2]))]
              rw [mapGet, if_neg hkne]
              rfl

theorem stepOK_dict (d : List (List Nat × Bencodable)) (hstep : ∀ p ∈ d, StepOK p.2) :
    StepOK (.dict d) := by
  intro bv hv he
  rw [validB_dict] at hv
  simp only [Bool.and_eq_true, decide_eq_true_eq] at hv
  rw [encode_dict, encodeMap_eq] at he
  cases hx : encodeEntries (sortJS (d.map Prod.fst)) d with
  | error e => rw [hx] at he; cases he
  | ok bs =>
    rw [hx] at he
    cases he
    have hnd : (sortJS (d.map Prod.fst)).Nodup :=
      ((sortJS_perm _).nodup_iff).mpr hv.1
    have hmem : ∀ k ∈ sortJS (d.map Prod.fst), k ∈ d.map Prod.fst :=
      fun k hk => (sortJS_perm _).mem_iff.mp hk
    obtain ⟨entries, F, hkeys, hlookup, hloop⟩ :=
      dictChain d hstep hv.2 (sortJS (d.map Prod.fst)) hnd hmem bs hx
    refine ⟨.dict entries, F + 1, ?_, ?_⟩
    · exact normalize_dict_eq hv.1 hkeys hlookup
    · intro pre post wfn last oOff acc fuel hF hwf
      have hat : jsGet (pre ++ (dictStartByte :: bs ++ [typeEndByte]) ++ post)
          (jpos pre.length) = some dictStartByte := by
        rw [jsGet_jpos]
        have hB : pre ++ (dictStartByte :: bs ++ [typeEndByte]) ++ post =
            pre ++ dictStartByte :: (bs ++ [typeEndByte] ++ post) := by simp
        rw [hB, getElem?_at]
      have hdd : decodeDict fuel (pre ++ (dictStartByte :: bs ++ [typeEndByte]) ++ post)
          (jpos pre.length) =
          .ok entries (jpos (pre.length + (dictStartByte :: bs ++ [typeEndByte]).length)) := by
        obtain ⟨g, rfl⟩ : ∃ g, fuel = g + 1 := ⟨fuel - 1, by omega⟩
        have hat2 := hat
        simp only [jpos] at hat2 ⊢
        rw [decodeDict, hat2]
        simp only []
        rw [if_pos trivial]
        have hc1 : ((pre.length : Nat) : Int) + 1 =
            (((pre ++ [dictStartByte]).length : Nat) : Int) := by
          simp <;> (push_cast; ring)
        rw [hc1]
        have hB : pre ++ (dictStartByte :: bs ++ [typeEndByte]) ++ post =
            (pre ++ [dictStartByte]) ++ bs ++ typeEndByte :: post := by simp
        rw [hB]
        rw [show (some (((pre ++ [dictStartByte]).length : Nat) : Int) : JSNum) =
          jpos (pre ++ [dictStartByte]).length from rfl]
        rw [hloop (pre ++ [dictStartByte]) post [] g (by omega) (fun k _ => rfl)]
        simp only [List.nil_append]
        have hlen : (pre ++ [dictStartByte]).length + bs.length + 1 =
            pre.length + (dictStartByte :: bs ++ [typeEndByte]).length := by
          simp
          omega
        rw [hlen]
        rfl
      rw [decodeAnyLoop, if_pos hwf, hat]
      simp only []
      rw [if_pos trivial]
      rw [hdd]

theorem stepOK_bool (b : Bool) : StepOK (.bool b) := by
  intro bv hv _
  rw [validB_bool] at hv
  cases hv

/-- Every value satisfies the one-round decoding contract. -/
theorem stepOK_all : ∀ v, StepOK v :=
  Bencodable.strongInduction StepOK stepOK_int stepOK_bool stepOK_str
    stepOK_list stepOK_dict

theorem emptyGuard_true (buff : List Nat) : emptyGuard buff = true := by
  simp [emptyGuard]

/-- The full round trip: decoding the encoding of a valid value yields a
single decoded value with the same normal form. -/
theorem roundtrip_core (v : Bencodable) (hv : validB v = true) (bv : List Nat)
    (he : encode v = .ok bv) :
    ∃ w F, normalize w = normalize v ∧
      ∀ fuel, F ≤ fuel → decodeTop fuel bv = some (.ok [w]) := by
  have hElems : encodeElems [v] = .ok bv := by
    rw [encodeElems_cons, he, encodeElems_nil]
    simp
  have hval : validElems [v] = true := by
    rw [validElems_cons, hv, validElems_nil]
    rfl
  obtain ⟨ws, F, hall, hloop⟩ := chainTop [v] (fun u _ => stepOK_all u) bv hval hElems
  obtain ⟨w, ws2, h1, h2, rfl⟩ :
      ∃ w ws2, normalize w = normalize v ∧ ws2 = [] ∧ ws = w :: ws2 := by
    cases hall with
    | cons h1 hrest =>
      cases hrest
      exact ⟨_, _, h1, rfl, rfl⟩
  subst h2
  refine ⟨w, F, h1, ?_⟩
  intro fuel hF
  rw [decodeTop, if_pos (emptyGuard_true bv)]
  rw [decodeBuffer, decodeAny]
  have h0 : (some (0 : Int) : JSNum) = jpos 0 := by simp [jpos]
  rw [h0]
  have hrun := hloop [] none (jpos 0) [] fuel hF
  simp only [List.nil_append, List.length_nil, Nat.zero_add] at hrun
  rw [hrun]

/-! ## The integer scan diverges on a missing terminator -/

/-- On the buffer `i5` (no `e` terminator) the integer decoder runs out of
any amount of fuel: the loop guard reads the fixed byte `buff[sOffset]`,
which stays defined, so the scan never stops. -/
theorem decodeInteger_i5_div :
    ∀ fuel, decodeInteger fuel [intStartByte, 53] (some 0) = .div := by
  intro fuel
  cases fuel with
  | zero => rfl
  | succ f =>
    rw [decodeInteger]
    rw [show jsGet [intStartByte, 53] (some 0) = some intStartByte from rfl]
    simp only []
    rw [if_pos trivial]
    rw [show ((0 : Int) + 1) = 1 from by norm_num]
    rw [intScan_i5 f 1]

/-! ## Unrecognized bytes are skipped, not rejected -/

/-- A byte is dispatched to no decoder when it is none of `d`, `l`, `i`, or
an ASCII digit. -/
def unrecognizedByte (b : Nat) : Bool :=
  !(b = dictStartByte || b = listStartByte || b = intStartByte ||
    decide (b ∈ stringStartBytes))

theorem skipAux : ∀ (k : Nat) (buff : List Nat) (j : Nat), j + k = buff.length →
    (∀ b ∈ buff, unrecognizedByte b = true) →
    ∀ (last : Option Bencodable) (oOff : JSNum) (acc : List Bencodable) (fuel : Nat),
    k + 1 ≤ fuel →
    decodeAnyLoop fuel buff (fun _ _ v3 => (jsGet buff v3).isSome) last oOff (jpos j) acc =
      .ok acc (jpos buff.length) := by
  intro k
  induction k with
  | zero =>
    intro buff j hj hb last oOff acc fuel hF
    obtain ⟨f, rfl⟩ : ∃ f, fuel = f + 1 := ⟨fuel - 1, by omega⟩
    rw [decodeAnyLoop]
    have hend : jsGet buff (jpos j) = none := by
      rw [jsGet_jpos]
      apply List.getElem?_eq_none
      omega
    rw [if_neg (by rw [hend]; simp)]
    have hj0 : j = buff.length := by omega
    rw [hj0]
  | succ k ih =>
    intro buff j hj hb last oOff acc fuel hF
    obtain ⟨f, rfl⟩ : ∃ f, fuel = f + 1 := ⟨fuel - 1, by omega⟩
    have hjlt : j < buff.length := by omega
    have hat : jsGet buff (jpos j) = some buff[j] := by
      rw [jsGet_jpos]
      exact List.getElem?_eq_getElem hjlt
    have hub : unrecognizedByte buff[j] = true := hb _ (List.getElem_mem hjlt)
    simp only [unrecognizedByte, Bool.not_eq_eq_eq_not, Bool.not_true, Bool.or_eq_false_iff,
      decide_eq_false_iff_not] at hub
    rw [decodeAnyLoop]
    rw [if_pos (by rw [hat]; rfl), hat]
    simp only []
    rw [if_neg (by simpa using hub.1.1.1), if_neg (by simpa using hub.1.1.2),
      if_neg (by simpa using hub.1.2), if_neg hub.2]
    rw [jsAdd_jpos_one]
    exact ih buff (j + 1) (by omega) hb last (jpos j) acc f (by omega)

/-- A buffer made entirely of unrecognized bytes decodes to the empty list
of top-level values — the dispatch skips each byte instead of failing. -/
theorem decodeTop_skips_unrecognized (buff : List Nat)
    (hb : ∀ b ∈ buff, unrecognizedByte b = true) :
    ∀ fuel, buff.length + 1 ≤ fuel → decodeTop fuel buff = some (.ok []) := by
  intro fuel hF
  rw [decodeTop, if_pos (emptyGuard_true buff)]
  rw [decodeBuffer, decodeAny]
  have h0 : (some (0 : Int) : JSNum) = jpos 0 := by simp [jpos]
  rw [h0]
  rw [skipAux buff.length buff 0 (by omega) hb none (jpos 0) [] fuel hF]

/-- Pointwise-equal key lookups give byte-identical entry encodings. -/
theorem encodeEntries_ext {d1 d2 : List (List Nat × Bencodable)}
    (h : ∀ k, mapGet k d1 = mapGet k d2) :
    ∀ ks, encodeEntries ks d1 = encodeEntries ks d2 := by
  intro ks
  induction ks with
  | nil => rw [encodeEntries_nil, encodeEntries_nil]
  | cons k ks ih => rw [encodeEntries_cons, encodeEntries_cons, h k, ih]

/-! ## The claims -/

/-- C1: Round trip — for every valid `Bencodable` value tree `v`
(non-negative integral numbers, strings, lists, dictionaries with distinct
keys), decoding the encoding of `v` succeeds and yields one value equal to
`v` under structural equality with dictionaries compared as unordered
mappings (`normalize` sorts dictionary entries recursively). -/
theorem spec_C1_roundtrip (v : Bencodable) (hv : validB v = true)
    (bv : List Nat) (he : encode v = .ok bv) :
    ∃ w F, normalize w = normalize v ∧
      ∀ fuel, F ≤ fuel → decodeTop fuel bv = some (.ok [w]) :=
  roundtrip_core v hv bv he

/-- Witness for C1 at `v = [7, "ab"]`, whose encoding is `li7e2:abe`. -/
theorem spec_C1_roundtrip_witness :
    ∃ w F, normalize w = normalize (.list [.int 7, .str [97, 98]]) ∧
      ∀ fuel, F ≤ fuel →
        decodeTop fuel [108, 105, 55, 101, 50, 58, 97, 98, 101] = some (.ok [w]) :=
  spec_C1_roundtrip (.list [.int 7, .str [97, 98]]) (by norm_num)
    [108, 105, 55, 101, 50, 58, 97, 98, 101]
    (by
      have h7 : natDigitBytes (7 : Rat).num.toNat = [55] := by
        rw [show ((7 : Rat)).num.toNat = 7 from rfl]
        norm_num [natDigitBytes]
      have hi : encodeInt 7 = .ok [105, 55, 101] := by
        rw [encodeInt_ok (by norm_num) (by norm_num), h7]
        rfl
      have hs : encodeString [97, 98] = [50, 58, 97, 98] := by
        norm_num [encodeString, natDigitBytes, delimiterByte]
      simp [hi, hs, listStartByte, typeEndByte])

/-- C2 counterexample: the buffer `i1ei2e` holds two well-formed top-level
values, and `decode` returns BOTH of them as a list — not the first value
alone, contrary to the claim that a single `Value` is returned. -/
theorem spec_C2_counterexample :
    decodeTop 9 [105, 49, 101, 105, 50, 101] = some (.ok [.int 1, .int 2]) := rfl

/-- C2 (amended): top-level `decode` applies any-value dispatch until the
buffer is exhausted and returns the list of ALL top-level values parsed, in
order — not only the first. -/
theorem spec_C2_decode_returns_all (v1 v2 : Bencodable)
    (hv1 : validB v1 = true) (hv2 : validB v2 = true) (bv1 bv2 : List Nat)
    (he1 : encode v1 = .ok bv1) (he2 : encode v2 = .ok bv2) :
    ∃ w1 w2 F, normalize w1 = normalize v1 ∧ normalize w2 = normalize v2 ∧
      ∀ fuel, F ≤ fuel → decodeTop fuel (bv1 ++ bv2) = some (.ok [w1, w2]) := by
  have hElems : encodeElems [v1, v2] = .ok (bv1 ++ bv2) := by
    rw [encodeElems_cons, he1, encodeElems_cons, he2, encodeElems_nil]
    simp
  have hval : validElems [v1, v2] = true := by
    rw [validElems_cons, hv1, validElems_cons, hv2, validElems_nil]
    rfl
  obtain ⟨ws, F, hall, hloop⟩ := chainTop [v1, v2] (fun u _ => stepOK_all u) _ hval hElems
  cases hall with
  | cons h1 hrest =>
    cases hrest with
    | cons h2 hrest2 =>
      cases hrest2
      refine ⟨_, _, F, h1, h2, ?_⟩
      intro fuel hF
      rw [decodeTop, if_pos (emptyGuard_true _)]
      rw [decodeBuffer, decodeAny]
      have h0 : (some (0 : Int) : JSNum) = jpos 0 := by simp [jpos]
      rw [h0]
      have hrun := hloop [] none (jpos 0) [] fuel hF
      simp only [List.nil_append, List.length_nil, Nat.zero_add] at hrun
      rw [hrun]

/-- Witness for the amended C2 at `v1 = 1`, `v2 = 2` (`i1e` and `i2e`). -/
theorem spec_C2_decode_returns_all_witness :
    ∃ w1 w2 F, normalize w1 = normalize (.int 1) ∧ normalize w2 = normalize (.int 2) ∧
      ∀ fuel, F ≤ fuel →
        decodeTop fuel ([105, 49, 101] ++ [105, 50, 101]) = some (.ok [w1, w2]) :=
  spec_C2_decode_returns_all (.int 1) (.int 2) (by norm_num) (by norm_num)
    [105, 49, 101] [105, 50, 101]
    (by
      have h1 : natDigitBytes (1 : Rat).num.toNat = [49] := by
        rw [show ((1 : Rat)).num.toNat = 1 from rfl]
        norm_num [natDigitBytes]
      rw [encode_int, encodeInt_ok (by norm_num) (by norm_num), h1]
      rfl)
    (by
      have h2 : natDigitBytes (2 : Rat).num.toNat = [50] := by
        rw [show ((2 : Rat)).num.toNat = 2 from rfl]
        norm_num [natDigitBytes]
      rw [encode_int, encodeInt_ok (by norm_num) (by norm_num), h2]
      rfl)

/-- C3 counterexample: the byte `x` (120) is none of `d`, `l`, `i`, or a
digit, yet decoding the buffer `x` SUCCEEDS with an empty value list instead
of failing with an `UnrecognizedToken` error. -/
theorem spec_C3_counterexample :
    unrecognizedByte 120 = true ∧ decodeTop 2 [120] = some (.ok []) := ⟨rfl, rfl⟩

/-- C3 (amended): a byte outside `{d, l, i, 0-9}` is silently SKIPPED by the
any-value dispatch (the default switch case only advances the offset), so a
buffer made entirely of unrecognized bytes decodes to the empty list of
top-level values rather than an error. -/
theorem spec_C3_unrecognized_skipped (buff : List Nat)
    (hb : ∀ b ∈ buff, unrecognizedByte b = true) (fuel : Nat)
    (hf : buff.length + 1 ≤ fuel) : decodeTop fuel buff = some (.ok []) :=
  decodeTop_skips_unrecognized buff hb fuel hf

/-- Witness for the amended C3 on the two-byte buffer `xz`. -/
theorem spec_C3_unrecognized_skipped_witness :
    decodeTop 3 [120, 122] = some (.ok []) :=
  spec_C3_unrecognized_skipped [120, 122] (by decide) 3 (by decide)

/-- C4 counterexample: decoding the buffer `5:ab` — declared length 5 with
only 2 bytes available — SUCCEEDS with the shortened string `ab` and offset
7 (past the end of the buffer) instead of failing with a truncation error:
`decodeStringContent` performs no bounds check and the slice is clamped. -/
theorem spec_C4_counterexample :
    decodeString [53, 58, 97, 98] (some 0) = .ok ([97, 98], some 7) := rfl

/-- C4 (amended): when the declared length `L` is at least the number of
available bytes, `decodeString` SUCCEEDS, returning all remaining bytes
(the clamped slice) together with the offset `digitsOf(L) + 1 + L`, which
may lie beyond the end of the buffer. -/
theorem spec_C4_truncated_succeeds (L : Nat) (s : List Nat) (h : s.length ≤ L) :
    decodeString (natDigitBytes L ++ delimiterByte :: s) (jpos 0) =
      .ok (s, jpos ((natDigitBytes L).length + 1 + L)) :=
  decodeString_truncated L s h

/-- Witness for the amended C4 at `5:ab`. -/
theorem spec_C4_truncated_succeeds_witness :
    decodeString (natDigitBytes 5 ++ delimiterByte :: [97, 98]) (jpos 0) =
      .ok ([97, 98], jpos ((natDigitBytes 5).length + 1 + 5)) :=
  spec_C4_truncated_succeeds 5 [97, 98] (by decide)

/-- C5: Canonical sort — encoding a dictionary whose pairs were inserted in
any order yields byte-identical output to encoding the same pairs inserted
in any other order (the encoder sorts the keys first), and the key list the
encoder emits entries along is sorted in ascending lexicographic byte
order. -/
theorem spec_C5_canonical_sort (d1 d2 : List (List Nat × Bencodable))
    (hperm : d1.Perm d2) (hnd : (d1.map Prod.fst).Nodup) :
    encodeMap d1 = encodeMap d2 ∧
    List.Sorted KeyLe (sortJS (d1.map Prod.fst)) ∧
    encodeMap d1 = (match encodeEntries (sortJS (d1.map Prod.fst)) d1 with
      | .error e => .error e
      | .ok bs => .ok (dictStartByte :: bs ++ [typeEndByte])) := by
  refine ⟨?_, sortJS_sorted _, encodeMap_eq d1⟩
  rw [encodeMap_eq, encodeMap_eq]
  rw [sortJS_eq_of_perm (hperm.map Prod.fst)]
  rw [encodeEntries_ext (mapGet_perm hperm hnd) (sortJS (d2.map Prod.fst))]

/-- Witness for C5 at the two insertion orders of `{b: 1, a: 2}`. -/
theorem spec_C5_canonical_sort_witness :
    encodeMap [([98], .int 1), ([97], .int 2)] =
      encodeMap [([97], .int 2), ([98], .int 1)] ∧
    List.Sorted KeyLe
      (sortJS (([([98], Bencodable.int 1), ([97], Bencodable.int 2)]).map Prod.fst)) ∧
    encodeMap [([98], .int 1), ([97], .int 2)] =
      (match encodeEntries
          (sortJS (([([98], Bencodable.int 1), ([97], Bencodable.int 2)]).map Prod.fst))
          [([98], .int 1), ([97], .int 2)] with
        | .error e => .error e
        | .ok bs => .ok (dictStartByte :: bs ++ [typeEndByte])) :=
  spec_C5_canonical_sort [([98], .int 1), ([97], .int 2)]
    [([97], .int 2), ([98], .int 1)]
    (List.Perm.swap ([97], Bencodable.int 2) ([98], Bencodable.int 1) []) (by decide)

/-- C6 counterexample: the buffer `i-0e` has a negative sign in its integer
payload, yet `decodeInteger` SUCCEEDS with value `0` (JS `parseInt("-0")`
yields `-0`, which passes the `v >= 0` filter) instead of failing. -/
theorem spec_C6_counterexample :
    decodeInteger 9 [105, 45, 48, 101] (some 0) = .ok 0 (some 4) := rfl

/-- C6 (amended): the integer decoder rejects a payload only when its parsed
VALUE is strictly negative: whenever `parseInt` of the payload yields
`n < 0`, `decodeInteger` fails with the "is negative" error (so `i-5e`
fails), while a payload like `-0` parses to `0` and is accepted. -/
theorem spec_C6_negative_rejected (payload rest : List Nat)
    (hp : ∀ b ∈ payload, b ≠ typeEndByte) (n : Int)
    (hn : parseIntJS payload = some n) (hneg : n < 0) (fuel : Nat)
    (hf : payload.length + 2 ≤ fuel) :
    decodeInteger fuel (intStartByte :: payload ++ typeEndByte :: rest) (some 0) =
      .err "is negative" := by
  have h := decodeInteger_framed payload rest [] hp fuel hf
  simp only [List.nil_append, List.length_nil] at h
  rw [show (some (0 : Int) : JSNum) = jpos 0 from by simp [jpos], h, hn]
  simp only []
  rw [if_pos hneg]

/-- Witness for the amended C6 at the buffer `i-5e`. -/
theorem spec_C6_negative_rejected_witness :
    decodeInteger 4 (intStartByte :: [45, 53] ++ typeEndByte :: []) (some 0) =
      .err "is negative" :=
  spec_C6_negative_rejected [45, 53] [] (by decide) (-5) (by rfl) (by decide) 4 (by decide)

/-- C7: Integer encode domain and framing — `encodeInt q` fails exactly when
`q` is negative or non-integral; otherwise it emits
`i<decimal digits of q>e`, and decoding that encoding (with anything after
it) returns the integer with an offset advance of `digitsOf(q) + 2`. -/
theorem spec_C7_integer_framing (q : Rat) :
    (¬ (0 ≤ q ∧ q.den = 1) → ∃ e, encodeInt q = .error e) ∧
    (0 ≤ q → q.den = 1 →
      encodeInt q = .ok (intStartByte :: natDigitBytes q.num.toNat ++ [typeEndByte]) ∧
      ∀ post fuel, (natDigitBytes q.num.toNat).length + 2 ≤ fuel →
        decodeInteger fuel
            ((intStartByte :: natDigitBytes q.num.toNat ++ [typeEndByte]) ++ post)
            (some 0) =
          .ok (q.num.toNat : Int)
            (some ((((natDigitBytes q.num.toNat).length + 2 : Nat)) : Int))) := by
  constructor
  · intro hne
    unfold encodeInt
    by_cases h0 : 0 ≤ q
    · rw [if_neg (not_not_intro h0)]
      have hd : ¬ q.den = 1 := fun hd => hne ⟨h0, hd⟩
      rw [if_pos hd]
      exact ⟨_, rfl⟩
    · rw [if_pos h0]
      exact ⟨_, rfl⟩
  · intro h0 h1
    refine ⟨encodeInt_ok h0 h1, ?_⟩
    intro post fuel hf
    have h := decodeInteger_at [] post q.num.toNat fuel hf
    simp only [List.nil_append, List.length_nil, Nat.zero_add] at h
    rw [show (some (0 : Int) : JSNum) = jpos 0 from by simp [jpos], h]
    congr 1

/-- C8: String length law — encoding a string never fails (`encodeString` is
total and `encode` wraps it in `.ok`), the encoding has length
`L + digitsOf(L) + 1`, and decoding it at offset `0` returns the original
string with exactly that next offset. -/
theorem spec_C8_string_length_law (s : List Nat) :
    encode (.str s) = .ok (encodeString s) ∧
    (encodeString s).length = s.length + (natDigitBytes s.length).length + 1 ∧
    decodeString (encodeString s) (jpos 0) =
      .ok (s, jpos (s.length + (natDigitBytes s.length).length + 1)) := by
  have hlen : (encodeString s).length = s.length + (natDigitBytes s.length).length + 1 := by
    simp [encodeString]
    try omega
  refine ⟨encode_str s, hlen, ?_⟩
  have h := decodeString_at [] s []
  simp only [List.nil_append, List.append_nil, List.length_nil, Nat.zero_add] at h
  rw [h, hlen]

/-- C9 (code bug): `decodeInteger` does NOT terminate on the buffer `i5`
(no `e` terminator): the scanning loop's guard re-reads the fixed byte
`buff[sOffset]`, which stays defined, while `cOffset` runs past the end of
the buffer forever — the decoder exhausts any amount of fuel. -/
theorem spec_C9_decodeInteger_diverges :
    ∀ fuel, decodeInteger fuel [intStartByte, 53] (some 0) = .div :=
  decodeInteger_i5_div

/-- C10: Empty-buffer edge case — the guard of `decode` tests `length >= 0`,
which holds for every buffer, so no buffer is ever rejected as empty, and
decoding the empty buffer succeeds with an empty list of values. -/
theorem spec_C10_empty_guard :
    (∀ buff : List Nat, emptyGuard buff = true) ∧ decodeTop 1 [] = some (.ok []) :=
  ⟨emptyGuard_true, rfl⟩

end Bencoder
